import Mathlib

/-!
Verification of the tsarray dynamic-array library (src/src/tsarray.c,
src/src/common.h) against its natural-language specification.

The C code is shallowly embedded: machine integers become `Nat` (all values
involved are unsigned long / size_t quantities kept below the explicit
bounds `LONG_MAX`, `ULONG_MAX`, `SIZE_MAX` of an LP64 platform), signed
`long` arguments become `Int`, buffers become `List (Option α)` (a `none`
entry models an uninitialized slot), allocation success is an explicit
boolean oracle, and every mutating operation returns its C error code
together with the post-state.
-/

namespace Tsarray

/-- `LONG_MAX` on an LP64 platform; the spec's MAX_INDEX. -/
def LONG_MAX : Nat := 2 ^ 63 - 1

/-- `ULONG_MAX` on an LP64 platform. -/
def ULONG_MAX : Nat := 2 ^ 64 - 1

/-- `SIZE_MAX` on an LP64 platform; the spec's MAX_BYTES. -/
def SIZE_MAX : Nat := 2 ^ 64 - 1

/-- Growth margin divisor (tsarray.c). -/
def MARGIN_RATIO : Nat := 8

/-- Minimum growth margin (tsarray.c). -/
def MIN_MARGIN : Nat := 4

/-- Shrink hysteresis divisor (tsarray.c). -/
def MIN_USAGE_RATIO : Nat := 2

/-- Assumed stddev divisor for the length hint (tsarray.c). -/
def HINT_STDDEV_RATIO : Nat := 3

/-- Error codes from `enum tsarray_errno` in tsarray.h. -/
def TSARRAY_EOK : Int := 0

/-- `TSARRAY_EINVAL` from tsarray.h. -/
def TSARRAY_EINVAL : Int := -1

/-- `TSARRAY_ENOENT` from tsarray.h. -/
def TSARRAY_ENOENT : Int := -2

/-- `TSARRAY_ENOMEM` from tsarray.h. -/
def TSARRAY_ENOMEM : Int := -3

/-- `TSARRAY_EOVERFLOW` from tsarray.h. -/
def TSARRAY_EOVERFLOW : Int := -4

/-! ## Arithmetic guards (common.h) -/

/-- `can_ulong_add` from common.h: `x <= ULONG_MAX - y`. -/
def can_ulong_add (x y : Nat) : Bool := decide (x ≤ ULONG_MAX - y)

/-- `ulong_add` from common.h: saturating unsigned-long addition. -/
def ulong_add (x y : Nat) : Nat :=
  if can_ulong_add x y then x + y else ULONG_MAX

/-- `can_add_ulong_within` from common.h:
`y <= cap && x <= cap && x <= cap - y`. -/
def can_add_ulong_within (x y cap : Nat) : Bool :=
  decide (y ≤ cap) && decide (x ≤ cap) && decide (x ≤ cap - y)

/-- `ulong_add_capped` from common.h: add capped at `cap`. -/
def ulong_add_capped (x y cap : Nat) : Nat :=
  if can_add_ulong_within x y cap then x + y else cap

/-- `can_add_within_long` from common.h. -/
def can_add_within_long (x y : Nat) : Bool :=
  can_add_ulong_within x y LONG_MAX

/-- `ulong_add_capped_long` from common.h. -/
def ulong_add_capped_long (x y : Nat) : Nat :=
  ulong_add_capped x y LONG_MAX

/-- `ulong_fits_in_long` from common.h. -/
def ulong_fits_in_long (x : Nat) : Bool := decide (x ≤ LONG_MAX)

/-- `can_size_mult` from common.h: `(y <= 1) || (x <= SIZE_MAX/y)`. -/
def can_size_mult (x y : Nat) : Bool :=
  decide (y ≤ 1) || decide (x ≤ SIZE_MAX / y)

/-- `is_valid_index` from common.h.  The last conjunct is
`SIZE_MAX - x*obj_size >= obj_size - 1`; in C, `&&` short-circuits, so
`x*obj_size` is only evaluated when `can_size_mult` already guarantees
`x*obj_size ≤ SIZE_MAX`, making the truncated `Nat` subtraction exact.
(For `obj_size = 0` the C expression `obj_size-1` wraps to `SIZE_MAX`,
making the conjunct `SIZE_MAX - 0 ≥ SIZE_MAX`, i.e. true; the `Nat`
reading `0 - 1 = 0 ≤ SIZE_MAX - 0` is also true, so the two agree.) -/
def is_valid_index (x obj_size : Nat) : Bool :=
  decide (x ≤ LONG_MAX) && decide (x ≤ SIZE_MAX) && can_size_mult x obj_size
    && decide (obj_size - 1 ≤ SIZE_MAX - x * obj_size)

/-- `same_sign` from tsarray.c. -/
def same_sign (a b : Int) : Bool :=
  (decide (a > 0) == decide (b > 0)) && (decide (a < 0) == decide (b < 0))

/-! ## Capacity planners (tsarray.c) -/

/-- `calc_new_capacity` from tsarray.c (the default planner).  In C the
`new_len + margin > SIZE_MAX` test is reached (by `||` short-circuit) only
when `can_add_within_long new_len margin` holds, so `new_len + margin`
never wraps; the `Nat` sum is therefore exact. -/
def calc_new_capacity (obj_size old_capacity new_len : Nat) : Nat :=
  if new_len ≤ old_capacity ∧ old_capacity / MIN_USAGE_RATIO ≤ new_len then
    old_capacity
  else
    let margin := new_len / MARGIN_RATIO + MIN_MARGIN
    let margin :=
      if ¬ can_add_within_long new_len margin ∨ SIZE_MAX < new_len + margin
          ∨ ¬ can_size_mult (new_len + margin) obj_size then 0
      else margin
    new_len + margin

/-- `calc_new_capacity_with_hint` from tsarray.c (the hinted planner).
All `Nat` subtractions here are exact where C evaluates them:
`est_stddev ≤ len_hint` and `2*est_stddev ≤ len_hint` because
`est_stddev = len_hint / 3`, and `old_capacity - new_len` sits behind the
short-circuited `old_capacity ≥ new_len` conjunct (if that conjunct fails,
the C condition is false and so is the `Nat` one regardless of the
truncated difference). -/
def calc_new_capacity_with_hint (obj_size old_capacity new_len len_hint : Nat) :
    Nat :=
  let est_stddev := len_hint / HINT_STDDEV_RATIO
  let one_stddev_low := len_hint - est_stddev
  let one_stddev_high := ulong_add len_hint est_stddev
  let two_stddev_low := len_hint - 2 * est_stddev
  if new_len ≤ old_capacity ∧ two_stddev_low ≤ old_capacity ∧
      (old_capacity ≤ one_stddev_high ∨ old_capacity - new_len ≤ est_stddev) then
    old_capacity
  else if new_len < two_stddev_low then
    two_stddev_low
  else if new_len < one_stddev_low then
    new_len - two_stddev_low + new_len
  else if new_len < len_hint then
    len_hint
  else
    let new_capacity := ulong_add_capped_long new_len MIN_MARGIN
    if ¬ is_valid_index new_capacity obj_size then new_len else new_capacity

/-! ## Container state (struct _tsarray_priv, tsarray.c) -/

/-- The private tsarray descriptor `struct _tsarray_priv` together with the
buffer it owns.  The buffer is a list of slots, one per element of
capacity; a `none` slot models uninitialized memory.  `items = none`
models a NULL `pub.items` pointer. -/
structure T (α : Type) where
  obj_size : Nat
  capacity : Nat
  len : Nat
  len_hint : Nat
  has_len_hint : Bool
  items : Option (List (Option α))
deriving DecidableEq, Repr

/-- The buffer contents seen through a possibly-NULL pointer. -/
def buf (a : T α) : List (Option α) := a.items.getD []

/-- Raw indexed read of a container's buffer (no bounds check), the model
of `get_nth_item` followed by a one-object read. -/
def raw_get (a : T α) (k : Nat) : Option α := (buf a).getD k none

/-- The value stored at a live index: `items[k]` for `k < len`.  Reads
outside the live region give `none`. -/
def get_item (a : T α) (k : Nat) : Option α :=
  if k < a.len then raw_get a k else none

/-- Read one object at a signed index from a buffer; a read outside the
buffer (undefined behaviour in C) yields `none`, the junk marker. -/
def read_item (l : List (Option α)) (idx : Int) : Option α :=
  if 0 ≤ idx ∧ idx < (l.length : Int) then l.getD idx.toNat none else none

/-- `set_items` from tsarray.c: overwrite `objs.length` consecutive slots
starting at `index` (the byte-level `memcpy` done object by object).
Writes beyond the end of `buf` (undefined behaviour in C; excluded by the
callers' bounds obligations) are dropped by `List.set`. -/
def set_items (l : List (Option α)) (index : Nat) (objs : List (Option α)) :
    List (Option α) :=
  match objs with
  | [] => l
  | x :: rest => set_items (l.set index x) (index + 1) rest

/-- Contents of a successfully reallocated buffer: `realloc` preserves
`min(old size, new size)` bytes and leaves the rest uninitialized. -/
def realloc_contents (old : Option (List (Option α))) (new_capacity : Nat) :
    List (Option α) :=
  let oldbuf := old.getD []
  oldbuf.take new_capacity ++
    List.replicate (new_capacity - oldbuf.length) (none : Option α)

/-- The capacity `tsarray_resize` asks the planner for. -/
def planned_capacity (a : T α) (new_len : Nat) : Nat :=
  if a.has_len_hint then
    calc_new_capacity_with_hint a.obj_size a.capacity new_len a.len_hint
  else
    calc_new_capacity a.obj_size a.capacity new_len

/-! ## Operations (tsarray.c)

Every mutating operation returns its C error code paired with the
post-state.  `allocOk` is the allocation oracle: it decides whether a
`realloc` to a non-zero size succeeds on this call (a `realloc` to zero
bytes returns NULL legitimately, which the code accepts).  Constructor
calls take a `descOk` oracle for the descriptor `malloc` and return
`none` exactly when the C function returns NULL. -/

/-- `tsarray_resize` from tsarray.c. -/
def tsarray_resize (a : T α) (new_len : Nat) (allocOk : Bool) : Int × T α :=
  if SIZE_MAX < new_len ∨ ¬ can_size_mult new_len a.obj_size then
    (TSARRAY_ENOMEM, a)
  else
    let new_capacity := planned_capacity a new_len
    if new_capacity ≠ a.capacity then
      if allocOk ∧ new_capacity ≠ 0 then
        (TSARRAY_EOK,
         { a with items := some (realloc_contents a.items new_capacity),
                  capacity := new_capacity, len := new_len })
      else if new_capacity ≠ 0 then
        (TSARRAY_ENOMEM, a)
      else
        (TSARRAY_EOK, { a with items := none, capacity := 0, len := new_len })
    else
      (TSARRAY_EOK, { a with len := new_len })

/-- `tsarray_new` from tsarray.c.  The C code initializes `pub.items`,
`obj_size`, `capacity`, `len`, and then executes `priv->len_hint = false`
— it never writes `has_len_hint`, which therefore keeps whatever value
the malloc'd memory happened to contain.  The `junk_has_hint` argument
models that uninitialized value. -/
def new_state (obj_size : Nat) (junk_has_hint : Bool) : T α :=
  { obj_size := obj_size, capacity := 0, len := 0, len_hint := 0,
    has_len_hint := junk_has_hint, items := none }

/-- `tsarray_new` builds the `new_state` descriptor above (or returns
NULL when the descriptor `malloc` fails). -/
def tsarray_new (obj_size : Nat) (descOk junk_has_hint : Bool) :
    Option (T α) :=
  if descOk then some (new_state obj_size junk_has_hint) else none

/-- `tsarray_new_hint` from tsarray.c. -/
def tsarray_new_hint (obj_size len_hint : Nat)
    (descOk junk_has_hint allocOk : Bool) : Option (T α) :=
  if ¬ is_valid_index len_hint obj_size then none
  else
    match tsarray_new (α := α) obj_size descOk junk_has_hint with
    | none => none
    | some priv =>
      let priv := { priv with has_len_hint := true, len_hint := len_hint }
      let r := tsarray_resize priv 0 allocOk
      if r.1 ≠ 0 then none else some r.2

/-- `_tsarray_new_of_len` from tsarray.c. -/
def tsarray_new_of_len (obj_size len : Nat)
    (descOk junk_has_hint allocOk : Bool) : Option (T α) :=
  match tsarray_new (α := α) obj_size descOk junk_has_hint with
  | none => none
  | some priv =>
    let r := tsarray_resize priv len allocOk
    if r.1 ≠ 0 then none else some r.2

/-- `tsarray_from_array` from tsarray.c.  `src = none` models a NULL
source pointer; the `memcpy` reads the first `src_len` objects of the
source area. -/
def tsarray_from_array (src : Option (List (Option α))) (src_len obj_size : Nat)
    (descOk junk_has_hint allocOk : Bool) : Option (T α) :=
  if ¬ ulong_fits_in_long src_len then none
  else
    match tsarray_new_of_len (α := α) obj_size src_len descOk junk_has_hint
        allocOk with
    | none => none
    | some priv =>
      if src_len = 0 then some priv
      else
        match src with
        | none => none
        | some srcbuf =>
          some { priv with
                 items := priv.items.map
                   (fun l => set_items l 0 (srcbuf.take src_len)) }

/-- `tsarray_copy` from tsarray.c. -/
def tsarray_copy (a : T α) (descOk junk_has_hint allocOk : Bool) :
    Option (T α) :=
  tsarray_from_array a.items a.len a.obj_size descOk junk_has_hint allocOk

/-- The loop body of `tsarray_slice` (the stepped/backward branch): for
`i = start_i, …, start_i + fuel - 1` copy the object at signed source
index `real_start + i·step` into slot `i` of the destination. -/
def slice_loop (srcbuf : List (Option α)) (real_start step : Int) :
    Nat → Nat → List (Option α) → List (Option α)
  | 0, _, dest => dest
  | fuel + 1, i, dest =>
    slice_loop srcbuf real_start step fuel (i + 1)
      (dest.set i (read_item srcbuf (real_start + (i : Int) * step)))

/-- `tsarray_slice` from tsarray.c.  The `step = 1` branch passes a
pointer to item `lo_bound` to `tsarray_from_array`, which then reads
`hi_bound - lo_bound` consecutive objects from it; the source view passed
below reads exactly those objects (out-of-range reads — undefined
behaviour in C — yield the junk marker `none`). -/
def tsarray_slice (a : T α) (start stop step : Int)
    (descOk junk_has_hint allocOk : Bool) : Option (T α) :=
  let lo_bound : Int := min start stop
  let hi_bound : Int := min (max start stop) (a.len : Int)
  if step = 0 then none
  else if start = stop ∨ decide (start < stop) ≠ decide (step > 0)
      ∨ (a.len : Int) ≤ lo_bound then
    tsarray_new (α := α) a.obj_size descOk junk_has_hint
  else if step = 1 then
    let slice_len := (hi_bound - lo_bound).toNat
    tsarray_from_array
      (a.items.map (fun l =>
        (List.range slice_len).map
          (fun j : Nat => read_item l (lo_bound + (j : Int)))))
      slice_len a.obj_size descOk junk_has_hint allocOk
  else
    let slice_len := (hi_bound - lo_bound - 1).toNat / step.natAbs + 1
    match tsarray_new_of_len (α := α) a.obj_size slice_len descOk
        junk_has_hint allocOk with
    | none => none
    | some priv =>
      let real_start : Int := min start ((a.len : Int) - 1)
      some { priv with
             items := priv.items.map
               (fun dest => slice_loop (buf a) real_start step slice_len 0 dest) }

/-- The signed source indices read by a `tsarray_slice` call, branch by
branch: none in the empty cases, `lo_bound + j` for the `step = 1` cut,
and `real_start + i·step` for the stepped walk. -/
def slice_read_indices (len : Nat) (start stop step : Int) : List Int :=
  let lo_bound : Int := min start stop
  let hi_bound : Int := min (max start stop) (len : Int)
  if step = 0 then []
  else if start = stop ∨ decide (start < stop) ≠ decide (step > 0)
      ∨ (len : Int) ≤ lo_bound then []
  else if step = 1 then
    (List.range (hi_bound - lo_bound).toNat).map
      (fun j : Nat => lo_bound + (j : Int))
  else
    let slice_len := (hi_bound - lo_bound - 1).toNat / step.natAbs + 1
    let real_start : Int := min start ((len : Int) - 1)
    (List.range slice_len).map (fun i : Nat => real_start + (i : Int) * step)

/-- `tsarray_append` from tsarray.c. -/
def tsarray_append (a : T α) (object : α) (allocOk : Bool) : Int × T α :=
  let old_len := a.len
  if ¬ can_add_within_long old_len 1 then (TSARRAY_EOVERFLOW, a)
  else
    let r := tsarray_resize a (old_len + 1) allocOk
    if r.1 ≠ 0 then r
    else
      let items2 := r.2.items.map (fun l => set_items l old_len [some object])
      (TSARRAY_EOK, { r.2 with items := items2 })

/-- `tsarray_extend` from tsarray.c for two distinct containers: `src` is
a separate object and is not affected by the resize of `dest`. -/
def tsarray_extend (dest src : T α) (allocOk : Bool) : Int × T α :=
  let dest_len := dest.len
  let src_len := src.len
  if dest.obj_size ≠ src.obj_size then (TSARRAY_EINVAL, dest)
  else if ¬ can_add_within_long dest_len src_len then (TSARRAY_EOVERFLOW, dest)
  else
    let r := tsarray_resize dest (dest_len + src_len) allocOk
    if r.1 ≠ 0 then r
    else
      let items2 :=
        r.2.items.map (fun l => set_items l dest_len ((buf src).take src_len))
      (TSARRAY_EOK, { r.2 with items := items2 })

/-- `tsarray_extend` from tsarray.c in the aliased case `dest == src`:
the `set_items` call re-reads `tsarray_src->items` from the descriptor
AFTER the resize, so the source objects are the first `src_len` slots of
the (possibly reallocated) current buffer. -/
def tsarray_extend_self (a : T α) (allocOk : Bool) : Int × T α :=
  let dest_len := a.len
  let src_len := a.len
  if ¬ can_add_within_long dest_len src_len then (TSARRAY_EOVERFLOW, a)
  else
    let r := tsarray_resize a (dest_len + src_len) allocOk
    if r.1 ≠ 0 then r
    else
      let items2 :=
        r.2.items.map (fun l => set_items l dest_len (l.take src_len))
      (TSARRAY_EOK, { r.2 with items := items2 })

/-- The `memmove` done by `tsarray_remove`: shift the objects at indices
`index+1 … old_len-1` one slot left.  Slots `old_len-1` and beyond keep
their old bytes (the slot at `old_len-1` retains a stale copy). -/
def shift_left (l : List (Option α)) (index old_len : Nat) :
    List (Option α) :=
  l.take index ++ (l.drop (index + 1)).take (old_len - index - 1) ++
    l.drop (old_len - 1)

/-- `tsarray_remove` from tsarray.c. -/
def tsarray_remove (a : T α) (index : Int) (allocOk : Bool) : Int × T α :=
  let old_len := a.len
  if index < 0 then (TSARRAY_EINVAL, a)
  else if (old_len : Int) ≤ index then (TSARRAY_ENOENT, a)
  else
    let i := index.toNat
    let a1 :=
      if i < old_len - 1 then
        { a with items := a.items.map (fun l => shift_left l i old_len) }
      else a
    tsarray_resize a1 (old_len - 1) allocOk

/-- The scan loop of `minmax_scan`: starting from candidate index `cand`,
examine `fuel` further items beginning at index `i`, replacing the
candidate whenever the comparison's sign matches `direction`. -/
def scan_loop (l : List (Option α)) (cmp : Option α → Option α → Int)
    (direction : Int) : Nat → Nat → Nat → Nat
  | 0, cand, _ => cand
  | fuel + 1, cand, i =>
    let diff := cmp (l.getD i none) (l.getD cand none)
    scan_loop l cmp direction fuel
      (if same_sign direction diff then i else cand) (i + 1)

/-- `minmax_scan` from tsarray.c; the returned pointer is modelled as the
index of the chosen item. -/
def minmax_scan (a : T α) (cmp : Option α → Option α → Int)
    (direction : Int) : Option Nat :=
  if a.len = 0 then none
  else some (scan_loop (buf a) cmp direction (a.len - 1) 0 1)

/-- `tsarray_min` from tsarray.c. -/
def tsarray_min (a : T α) (cmp : Option α → Option α → Int) : Option Nat :=
  minmax_scan a cmp (-1)

/-- `tsarray_max` from tsarray.c. -/
def tsarray_max (a : T α) (cmp : Option α → Option α → Int) : Option Nat :=
  minmax_scan a cmp 1

/-- `tsarray_len` from tsarray.c. -/
def tsarray_len (a : T α) : Nat := a.len

/-- The data-model invariant of §3 of the spec, as checked on the model
state: length within capacity, buffer present exactly when capacity is
non-zero (and of exactly `capacity` slots), length and capacity within
`MAX_INDEX = LONG_MAX`, capacity addressable in bytes, together with the
machine-representability facts `0 < obj_size ≤ SIZE_MAX` and the validity
of the recorded length hint. -/
def inv (a : T α) : Prop :=
  a.len ≤ a.capacity ∧
  a.len ≤ LONG_MAX ∧
  a.capacity ≤ LONG_MAX ∧
  a.capacity * a.obj_size ≤ SIZE_MAX ∧
  (a.items = none ↔ a.capacity = 0) ∧
  (buf a).length = a.capacity ∧
  0 < a.obj_size ∧
  a.obj_size ≤ SIZE_MAX ∧
  is_valid_index a.len_hint a.obj_size = true

instance [DecidableEq α] (a : T α) : Decidable (inv a) := by
  unfold inv
  infer_instance

/-! ## Concrete containers used as witnesses -/

/-- A live container holding the ints `0 … 9` (spec scenario 5). -/
def exampleTen : T Int :=
  { obj_size := 4, capacity := 10, len := 10, len_hint := 0,
    has_len_hint := false,
    items := some ((List.range 10).map (fun i => some (i : Int))) }

/-- A live container holding the ints `[10, 11, 12]`. -/
def exampleThree : T Int :=
  { obj_size := 4, capacity := 3, len := 3, len_hint := 0,
    has_len_hint := false, items := some [some 10, some 11, some 12] }

/-- A small live container holding one int. -/
def exampleOne : T Int :=
  { obj_size := 4, capacity := 2, len := 1, len_hint := 0,
    has_len_hint := false, items := some [some 5, none] }

/-- A live container with capacity 12 but only 6 live elements: the next
remove triggers a shrink reallocation. -/
def exampleShrink : T Int :=
  { obj_size := 4, capacity := 12, len := 6, len_hint := 0,
    has_len_hint := false,
    items := some ((List.range 6).map (fun i => some (i : Int)) ++
      List.replicate 6 none) }

/-- A live container of one huge element (`obj_size = 2^63`): appending a
second element would exceed the byte-address space while `len + 1` still
fits the signed index type. -/
def exampleHuge : T Unit :=
  { obj_size := 2 ^ 63, capacity := 1, len := 1, len_hint := 0,
    has_len_hint := false, items := some [some ()] }

/-- A live container holding the ints `[0, 1]`. -/
def exampleTwo : T Int :=
  { obj_size := 4, capacity := 2, len := 2, len_hint := 0,
    has_len_hint := false, items := some [some 0, some 1] }

/-- A live container holding the value 47 three times (spec scenario 7). -/
def exampleTies : T Int :=
  { obj_size := 4, capacity := 3, len := 3, len_hint := 0,
    has_len_hint := false, items := some [some 47, some 47, some 47] }

/-- The integer-comparison callback used by the min/max witnesses. -/
def cmpInt (p q : Option Int) : Int := p.getD 0 - q.getD 0

/-! ## Facts about the arithmetic guards -/

theorem can_size_mult_mul_le {x y : Nat} (h : can_size_mult x y = true)
    (hx : x ≤ SIZE_MAX) : x * y ≤ SIZE_MAX := by
  unfold can_size_mult at h
  rcases Bool.or_eq_true_iff.mp h with h1 | h1
  · have hy : y ≤ 1 := by simpa using h1
    calc x * y ≤ x * 1 := Nat.mul_le_mul_left x hy
    _ = x := Nat.mul_one x
    _ ≤ SIZE_MAX := hx
  · have hy : x ≤ SIZE_MAX / y := by simpa using h1
    rcases Nat.eq_zero_or_pos y with h0 | h0
    · simp [h0]
    · exact (Nat.le_div_iff_mul_le h0).mp hy

theorem mul_le_can_size_mult {x y : Nat} (h : x * y ≤ SIZE_MAX) :
    can_size_mult x y = true := by
  unfold can_size_mult
  rcases le_or_lt y 1 with hy | hy
  · simp [hy]
  · have : x ≤ SIZE_MAX / y := (Nat.le_div_iff_mul_le (by omega)).mpr h
    simp [this]

theorem can_add_within_long_iff {x y : Nat} :
    can_add_within_long x y = true ↔ x + y ≤ LONG_MAX := by
  unfold can_add_within_long can_add_ulong_within
  simp only [Bool.and_eq_true, decide_eq_true_eq]
  omega

theorem is_valid_index_spec {x s : Nat} (h : is_valid_index x s = true) :
    x ≤ LONG_MAX ∧ x * s ≤ SIZE_MAX := by
  unfold is_valid_index at h
  simp only [Bool.and_eq_true, decide_eq_true_eq] at h
  exact ⟨h.1.1.1, can_size_mult_mul_le h.1.2 h.1.1.2⟩

theorem ulong_add_capped_long_le (x y : Nat) :
    ulong_add_capped_long x y ≤ LONG_MAX := by
  unfold ulong_add_capped_long ulong_add_capped
  split
  · next h =>
      unfold can_add_ulong_within at h
      simp only [Bool.and_eq_true, decide_eq_true_eq] at h
      omega
  · exact Nat.le_refl _

theorem le_ulong_add_capped_long {x : Nat} (y : Nat) (hx : x ≤ LONG_MAX) :
    x ≤ ulong_add_capped_long x y := by
  unfold ulong_add_capped_long ulong_add_capped
  split
  · exact Nat.le_add_right x y
  · exact hx

/-! ## Bounds satisfied by the capacity planners -/

/-- The default planner never returns less than the requested length. -/
theorem calc_new_capacity_ge (s oc n : Nat) : n ≤ calc_new_capacity s oc n := by
  unfold calc_new_capacity
  dsimp only
  split
  · next h => exact h.1
  · split
    · exact Nat.le_add_right n 0
    · exact Nat.le_add_right n _

/-- The default planner keeps its result within `LONG_MAX` and its byte
size within `SIZE_MAX`, given that the requested length and the old
capacity do. -/
theorem calc_new_capacity_le (s oc n : Nat) (hn : n ≤ LONG_MAX)
    (hns : n * s ≤ SIZE_MAX) (hoc : oc ≤ LONG_MAX) (hocs : oc * s ≤ SIZE_MAX) :
    calc_new_capacity s oc n ≤ LONG_MAX ∧
      calc_new_capacity s oc n * s ≤ SIZE_MAX := by
  unfold calc_new_capacity
  dsimp only
  split
  · exact ⟨hoc, hocs⟩
  · split
    · next h => simpa using ⟨hn, hns⟩
    · next h =>
        push_neg at h
        obtain ⟨h1, h2, h3⟩ := h
        have hadd := can_add_within_long_iff.mp h1
        have hs : LONG_MAX ≤ SIZE_MAX := by unfold LONG_MAX SIZE_MAX; omega
        exact ⟨hadd, can_size_mult_mul_le h3 (by omega)⟩

/-- The hinted planner never returns less than the requested length
(when the requested length fits a signed index). -/
theorem calc_new_capacity_with_hint_ge (s oc n h : Nat) (hn : n ≤ LONG_MAX) :
    n ≤ calc_new_capacity_with_hint s oc n h := by
  unfold calc_new_capacity_with_hint
  dsimp only
  split
  · next hh => exact hh.1
  · split
    · omega
    · split
      · omega
      · split
        · omega
        · split
          · exact Nat.le_refl n
          · exact le_ulong_add_capped_long MIN_MARGIN hn

/-- The hinted planner keeps its result within `LONG_MAX` and its byte
size within `SIZE_MAX`, given that the requested length, the old
capacity and the recorded hint do. -/
theorem calc_new_capacity_with_hint_le (s oc n h : Nat) (hn : n ≤ LONG_MAX)
    (hns : n * s ≤ SIZE_MAX) (hoc : oc ≤ LONG_MAX) (hocs : oc * s ≤ SIZE_MAX)
    (hh : is_valid_index h s = true) :
    calc_new_capacity_with_hint s oc n h ≤ LONG_MAX ∧
      calc_new_capacity_with_hint s oc n h * s ≤ SIZE_MAX := by
  obtain ⟨hh1, hh2⟩ := is_valid_index_spec hh
  have hble : ∀ m : Nat, m ≤ h → m ≤ LONG_MAX ∧ m * s ≤ SIZE_MAX := by
    intro m hm
    exact ⟨le_trans hm hh1, le_trans (Nat.mul_le_mul_right s hm) hh2⟩
  unfold calc_new_capacity_with_hint
  dsimp only
  split
  · exact ⟨hoc, hocs⟩
  · split
    · exact hble _ (by omega)
    · split
      · next hlow =>
          refine hble _ ?_
          omega
      · split
        · exact hble _ (Nat.le_refl h)
        · split
          · exact ⟨hn, hns⟩
          · next hv =>
              rw [not_not] at hv
              exact (is_valid_index_spec hv)

/-! ## Claim C1 -/

/-- Claim C1: for every call to the capacity planner (default or hinted
variant) in which `new_len` (and, for the hinted variant, the length
hint) is a valid index and `old_capacity` satisfies the container
invariants (`capacity ≤ MAX_INDEX`, `capacity · element_size`
addressable), the returned capacity is at least `new_len`, at most
`MAX_INDEX = LONG_MAX`, and its product with the element size fits the
byte-address space — i.e. the result is itself a valid index in the
spec's sense. -/
theorem planners_return_valid_capacity :
    (∀ s oc n : Nat, is_valid_index n s = true → oc ≤ LONG_MAX →
        oc * s ≤ SIZE_MAX →
        n ≤ calc_new_capacity s oc n ∧ calc_new_capacity s oc n ≤ LONG_MAX ∧
          calc_new_capacity s oc n * s ≤ SIZE_MAX) ∧
    (∀ s oc n h : Nat, is_valid_index n s = true → is_valid_index h s = true →
        oc ≤ LONG_MAX → oc * s ≤ SIZE_MAX →
        n ≤ calc_new_capacity_with_hint s oc n h ∧
          calc_new_capacity_with_hint s oc n h ≤ LONG_MAX ∧
          calc_new_capacity_with_hint s oc n h * s ≤ SIZE_MAX) := by
  constructor
  · intro s oc n hv hoc hocs
    obtain ⟨hn, hns⟩ := is_valid_index_spec hv
    obtain ⟨h1, h2⟩ := calc_new_capacity_le s oc n hn hns hoc hocs
    exact ⟨calc_new_capacity_ge s oc n, h1, h2⟩
  · intro s oc n h hv hvh hoc hocs
    obtain ⟨hn, hns⟩ := is_valid_index_spec hv
    obtain ⟨h1, h2⟩ := calc_new_capacity_with_hint_le s oc n h hn hns hoc hocs hvh
    exact ⟨calc_new_capacity_with_hint_ge s oc n h hn, h1, h2⟩

/-- Witness for C1: both planners at `obj_size = 4`, `old_capacity = 0`,
`new_len = 10`, hint `100`. -/
theorem planners_return_valid_capacity_witness :
    (is_valid_index 10 4 = true ∧ is_valid_index 100 4 = true ∧
      (0 : Nat) ≤ LONG_MAX ∧ 0 * 4 ≤ SIZE_MAX) ∧
    (10 ≤ calc_new_capacity 4 0 10 ∧ calc_new_capacity 4 0 10 ≤ LONG_MAX ∧
      calc_new_capacity 4 0 10 * 4 ≤ SIZE_MAX) ∧
    (10 ≤ calc_new_capacity_with_hint 4 0 10 100 ∧
      calc_new_capacity_with_hint 4 0 10 100 ≤ LONG_MAX ∧
      calc_new_capacity_with_hint 4 0 10 100 * 4 ≤ SIZE_MAX) :=
  ⟨⟨by decide, by decide, by decide, by decide⟩,
   planners_return_valid_capacity.1 4 0 10 (by decide) (by decide) (by decide),
   planners_return_valid_capacity.2 4 0 10 100 (by decide) (by decide)
     (by decide) (by decide)⟩

/-! ## Claim C5 -/

/-- Counterexample to claim C5 as stated: with a hint of 300, old
capacity 50 and requested length 30, the hysteresis premise of the claim
holds (`30 ≤ 50` and `30 ≥ 50 / MIN_USAGE_RATIO`), yet the hinted
planner returns `100` (`two_stddev_low` for hint 300), not the old
capacity `50`. -/
theorem hinted_planner_breaks_simple_hysteresis :
    (30 ≤ 50 ∧ 50 / MIN_USAGE_RATIO ≤ 30) ∧
      calc_new_capacity_with_hint 1 50 30 300 = 100 ∧
      calc_new_capacity_with_hint 1 50 30 300 ≠ 50 := by decide

/-- Claim C5 amended: the default planner keeps the old capacity
whenever `new_len ≤ old_capacity` and `new_len ≥ old_capacity /
MIN_USAGE_RATIO`; the hinted planner keeps the old capacity under its
own three-sigma hysteresis condition (`old_capacity ≥ new_len`,
`old_capacity ≥ two_stddev_low`, and `old_capacity ≤ one_stddev_high` or
`old_capacity − new_len ≤ est_stddev`), not under the default
condition. -/
theorem planner_hysteresis :
    (∀ s oc n : Nat, n ≤ oc → oc / MIN_USAGE_RATIO ≤ n →
        calc_new_capacity s oc n = oc) ∧
    (∀ s oc n h : Nat, n ≤ oc → h - 2 * (h / HINT_STDDEV_RATIO) ≤ oc →
        (oc ≤ ulong_add h (h / HINT_STDDEV_RATIO) ∨
          oc - n ≤ h / HINT_STDDEV_RATIO) →
        calc_new_capacity_with_hint s oc n h = oc) := by
  constructor
  · intro s oc n h1 h2
    unfold calc_new_capacity
    rw [if_pos ⟨h1, h2⟩]
  · intro s oc n h h1 h2 h3
    unfold calc_new_capacity_with_hint
    dsimp only
    rw [if_pos ⟨h1, h2, h3⟩]

/-- Witness for the amended C5: default planner keeps capacity 10 at
length 6; hinted planner with hint 9 keeps capacity 10 at length 7. -/
theorem planner_hysteresis_witness :
    ((6 ≤ 10 ∧ 10 / MIN_USAGE_RATIO ≤ 6) ∧ calc_new_capacity 4 10 6 = 10) ∧
    ((7 ≤ 10 ∧ 9 - 2 * (9 / HINT_STDDEV_RATIO) ≤ 10 ∧
        (10 ≤ ulong_add 9 (9 / HINT_STDDEV_RATIO) ∨
          10 - 7 ≤ 9 / HINT_STDDEV_RATIO)) ∧
      calc_new_capacity_with_hint 4 10 7 9 = 10) :=
  ⟨⟨⟨by decide, by decide⟩, planner_hysteresis.1 4 10 6 (by decide) (by decide)⟩,
   ⟨⟨by decide, by decide, by decide⟩,
    planner_hysteresis.2 4 10 7 9 (by decide) (by decide) (by decide)⟩⟩

/-! ## Elementary facts about the buffer operations -/

theorem long_le_size : LONG_MAX ≤ SIZE_MAX := by
  unfold LONG_MAX SIZE_MAX
  omega

theorem set_items_length (objs : List (Option α)) :
    ∀ (l : List (Option α)) (i : Nat),
      (set_items l i objs).length = l.length := by
  induction objs with
  | nil => intro l i; rfl
  | cons x rest ih =>
    intro l i
    calc (set_items (l.set i x) (i + 1) rest).length = (l.set i x).length :=
        ih (l.set i x) (i + 1)
    _ = l.length := List.length_set l i x

theorem set_items_getD_of_lt (objs : List (Option α)) :
    ∀ (l : List (Option α)) (i k : Nat), k < i →
      (set_items l i objs).getD k none = l.getD k none := by
  induction objs with
  | nil => intro l i k _; rfl
  | cons x rest ih =>
    intro l i k hk
    have h1 : (set_items (l.set i x) (i + 1) rest).getD k none =
        (l.set i x).getD k none := ih (l.set i x) (i + 1) k (by omega)
    have h2 : (l.set i x).getD k none = l.getD k none := by
      rw [List.getD_eq_getElem?_getD, List.getD_eq_getElem?_getD,
        List.getElem?_set, if_neg (by omega : ¬ i = k)]
    exact h1.trans h2

theorem set_items_getD_of_ge (objs : List (Option α)) :
    ∀ (l : List (Option α)) (i k : Nat), i + objs.length ≤ k →
      (set_items l i objs).getD k none = l.getD k none := by
  induction objs with
  | nil => intro l i k _; rfl
  | cons x rest ih =>
    intro l i k hk
    simp only [List.length_cons] at hk
    have h1 : (set_items (l.set i x) (i + 1) rest).getD k none =
        (l.set i x).getD k none := ih (l.set i x) (i + 1) k (by omega)
    have h2 : (l.set i x).getD k none = l.getD k none := by
      rw [List.getD_eq_getElem?_getD, List.getD_eq_getElem?_getD,
        List.getElem?_set, if_neg (by omega : ¬ i = k)]
    exact h1.trans h2

theorem set_items_getD_of_mem (objs : List (Option α)) :
    ∀ (l : List (Option α)) (i j : Nat), j < objs.length → i + j < l.length →
      (set_items l i objs).getD (i + j) none = objs.getD j none := by
  induction objs with
  | nil => intro l i j hj _; exact absurd hj (by simp)
  | cons x rest ih =>
    intro l i j hj hlen
    match j with
    | 0 =>
      have h1 : (set_items (l.set i x) (i + 1) rest).getD (i + 0) none =
          (l.set i x).getD (i + 0) none :=
        set_items_getD_of_lt rest (l.set i x) (i + 1) (i + 0) (by omega)
      have h2 : (l.set i x).getD i none = x := by
        rw [List.getD_eq_getElem?_getD, List.getElem?_set, if_pos rfl,
          if_pos (by omega)]
        rfl
      simpa using h1.trans h2
    | j' + 1 =>
      have hstep : i + (j' + 1) = (i + 1) + j' := by omega
      have hlen2 : (i + 1) + j' < (l.set i x).length := by
        rw [List.length_set]; omega
      have h1 := ih (l.set i x) (i + 1) j' (by simpa using hj) hlen2
      rw [hstep]
      exact h1

theorem realloc_contents_length (old : Option (List (Option α))) (nc : Nat) :
    (realloc_contents old nc).length = nc := by
  unfold realloc_contents
  simp only [List.length_append, List.length_take, List.length_replicate]
  omega

theorem realloc_contents_getD (old : Option (List (Option α))) (nc k : Nat)
    (hk : k < nc) :
    (realloc_contents old nc).getD k none = (old.getD []).getD k none := by
  unfold realloc_contents
  rw [List.getD_eq_getElem?_getD, List.getD_eq_getElem?_getD,
    List.getElem?_append]
  rcases lt_or_le k (old.getD []).length with hlt | hge
  · rw [if_pos (by simp [List.length_take]; omega), List.getElem?_take,
      if_pos hk]
  · rw [if_neg (by simp [List.length_take]; omega),
      List.getElem?_eq_none hge, List.getElem?_replicate]
    split <;> rfl

theorem shift_left_length (l : List (Option α)) (i L : Nat)
    (hi : i + 1 < L) (hL : L ≤ l.length) :
    (shift_left l i L).length = l.length := by
  unfold shift_left
  simp only [List.length_append, List.length_take, List.length_drop]
  omega

theorem slice_loop_length (srcbuf : List (Option α)) (rs st : Int) :
    ∀ (fuel i : Nat) (dest : List (Option α)),
      (slice_loop srcbuf rs st fuel i dest).length = dest.length := by
  intro fuel
  induction fuel with
  | zero => intro i dest; rfl
  | succ f ih =>
    intro i dest
    calc (slice_loop srcbuf rs st f (i + 1)
            (dest.set i (read_item srcbuf (rs + (i : Int) * st)))).length =
          (dest.set i (read_item srcbuf (rs + (i : Int) * st))).length :=
        ih (i + 1) _
    _ = dest.length := List.length_set dest i _

theorem slice_loop_getD_of_lt (srcbuf : List (Option α)) (rs st : Int) :
    ∀ (fuel i : Nat) (dest : List (Option α)) (k : Nat), k < i →
      (slice_loop srcbuf rs st fuel i dest).getD k none = dest.getD k none := by
  intro fuel
  induction fuel with
  | zero => intro i dest k _; rfl
  | succ f ih =>
    intro i dest k hk
    have h1 := ih (i + 1) (dest.set i (read_item srcbuf (rs + (i : Int) * st)))
      k (by omega)
    have h2 : (dest.set i (read_item srcbuf (rs + (i : Int) * st))).getD k none =
        dest.getD k none := by
      rw [List.getD_eq_getElem?_getD, List.getD_eq_getElem?_getD,
        List.getElem?_set, if_neg (by omega : ¬ i = k)]
    exact h1.trans h2

theorem slice_loop_getD (srcbuf : List (Option α)) (rs st : Int) :
    ∀ (fuel i : Nat) (dest : List (Option α)) (k : Nat),
      i ≤ k → k < i + fuel → k < dest.length →
      (slice_loop srcbuf rs st fuel i dest).getD k none =
        read_item srcbuf (rs + (k : Int) * st) := by
  intro fuel
  induction fuel with
  | zero => intro i dest k h1 h2 _; omega
  | succ f ih =>
    intro i dest k h1 h2 hlen
    rcases Nat.eq_or_lt_of_le h1 with heq | hlt
    · subst heq
      have hout := slice_loop_getD_of_lt srcbuf rs st f (i + 1)
        (dest.set i (read_item srcbuf (rs + (i : Int) * st))) i (by omega)
      have hset : (dest.set i (read_item srcbuf (rs + (i : Int) * st))).getD
          i none = read_item srcbuf (rs + (i : Int) * st) := by
        rw [List.getD_eq_getElem?_getD, List.getElem?_set, if_pos rfl,
          if_pos hlen]
        rfl
      exact hout.trans hset
    · have hlen2 : k < (dest.set i (read_item srcbuf (rs + (i : Int) * st))).length := by
        rw [List.length_set]; exact hlen
      exact ih (i + 1) _ k hlt (by omega) hlen2

/-! ## Behaviour of tsarray_resize -/

theorem planned_capacity_ge (a : T α) (n : Nat) (hn : n ≤ LONG_MAX) :
    n ≤ planned_capacity a n := by
  unfold planned_capacity
  split
  · exact calc_new_capacity_with_hint_ge _ _ _ _ hn
  · exact calc_new_capacity_ge _ _ _

theorem planned_capacity_le (a : T α) (n : Nat) (hn : n ≤ LONG_MAX)
    (hns : n * a.obj_size ≤ SIZE_MAX) (hoc : a.capacity ≤ LONG_MAX)
    (hocs : a.capacity * a.obj_size ≤ SIZE_MAX)
    (hh : is_valid_index a.len_hint a.obj_size = true) :
    planned_capacity a n ≤ LONG_MAX ∧
      planned_capacity a n * a.obj_size ≤ SIZE_MAX := by
  unfold planned_capacity
  split
  · exact calc_new_capacity_with_hint_le _ _ _ _ hn hns hoc hocs hh
  · exact calc_new_capacity_le _ _ _ hn hns hoc hocs

/-- Resizing preserves the data-model invariant, whether the underlying
`realloc` succeeds or fails, as long as the requested length fits the
signed index type (which every public caller guarantees). -/
theorem tsarray_resize_inv {a : T α} {n : Nat} (ok : Bool)
    (ha : inv a) (hn : n ≤ LONG_MAX) : inv (tsarray_resize a n ok).2 := by
  obtain ⟨h1, h2, h3, h4, h5, h6, h7, h8, h9⟩ := ha
  unfold tsarray_resize
  dsimp only
  split
  · exact ⟨h1, h2, h3, h4, h5, h6, h7, h8, h9⟩
  · next hguard =>
    push_neg at hguard
    obtain ⟨hsz, hmult⟩ := hguard
    have hns : n * a.obj_size ≤ SIZE_MAX := can_size_mult_mul_le hmult hsz
    have hge := planned_capacity_ge a n hn
    have hle := planned_capacity_le a n hn hns h3 h4 h9
    split
    · next hne =>
      split
      · next hok =>
        refine ⟨hge, hn, hle.1, hle.2, ?_, ?_, h7, h8, h9⟩
        · constructor
          · intro hcontra; exact absurd hcontra (by simp)
          · intro hc0; exact absurd hc0 hok.2
        · simpa [buf] using realloc_contents_length a.items (planned_capacity a n)
      · split
        · exact ⟨h1, h2, h3, h4, h5, h6, h7, h8, h9⟩
        · next hzero =>
          rw [not_not] at hzero
          refine ⟨?_, hn, ?_, ?_, ?_, ?_, h7, h8, h9⟩ <;> dsimp only <;>
            first
            | omega
            | simp [buf]
    · next heq =>
      rw [not_not] at heq
      refine ⟨?_, hn, h3, h4, h5, h6, h7, h8, h9⟩
      dsimp only
      omega

/-- On a successful allocation, `tsarray_resize` succeeds, sets the
length to the request, sets the capacity to the planner's answer, and
preserves the buffer contents below the new capacity. -/
theorem tsarray_resize_ok {a : T α} {n : Nat} (ha : inv a) (hn : n ≤ LONG_MAX)
    (hns : can_size_mult n a.obj_size = true) :
    (tsarray_resize a n true).1 = TSARRAY_EOK ∧
    (tsarray_resize a n true).2.len = n ∧
    (tsarray_resize a n true).2.capacity = planned_capacity a n ∧
    (tsarray_resize a n true).2.obj_size = a.obj_size ∧
    (tsarray_resize a n true).2.len_hint = a.len_hint ∧
    (tsarray_resize a n true).2.has_len_hint = a.has_len_hint ∧
    (∀ k, k < planned_capacity a n → raw_get (tsarray_resize a n true).2 k =
      raw_get a k) := by
  obtain ⟨h1, h2, h3, h4, h5, h6, h7, h8, h9⟩ := ha
  have hsz : ¬ (SIZE_MAX < n ∨ ¬ can_size_mult n a.obj_size = true) := by
    push_neg
    exact ⟨by have := long_le_size; omega, hns⟩
  unfold tsarray_resize
  dsimp only
  rw [if_neg hsz]
  split
  · next hne =>
    split
    · next hok =>
      refine ⟨rfl, rfl, rfl, rfl, rfl, rfl, ?_⟩
      intro k hk
      unfold raw_get buf
      simpa using realloc_contents_getD a.items (planned_capacity a n) k hk
    · next hfail =>
      push_neg at hfail
      have hzero := hfail (by trivial)
      rw [if_neg (not_not_intro hzero)]
      refine ⟨rfl, rfl, by simpa using hzero.symm, rfl, rfl, rfl, ?_⟩
      intro k hk
      rw [hzero] at hk
      omega
  · next heq =>
    rw [not_not] at heq
    exact ⟨rfl, rfl, heq.symm, rfl, rfl, rfl, fun k _ => rfl⟩

theorem tsarray_resize_meta (a : T α) (n : Nat) (ok : Bool) :
    (tsarray_resize a n ok).2.obj_size = a.obj_size ∧
    (tsarray_resize a n ok).2.len_hint = a.len_hint ∧
    (tsarray_resize a n ok).2.has_len_hint = a.has_len_hint := by
  unfold tsarray_resize
  dsimp only
  split
  · exact ⟨rfl, rfl, rfl⟩
  · split
    · split
      · exact ⟨rfl, rfl, rfl⟩
      · split
        · exact ⟨rfl, rfl, rfl⟩
        · exact ⟨rfl, rfl, rfl⟩
    · exact ⟨rfl, rfl, rfl⟩

theorem tsarray_resize_len_of_ok {a : T α} {n : Nat} {ok : Bool}
    (h : (tsarray_resize a n ok).1 = TSARRAY_EOK) :
    (tsarray_resize a n ok).2.len = n := by
  unfold tsarray_resize at h ⊢
  dsimp only at h ⊢
  split at h <;> rename_i h1
  · exact absurd h (show TSARRAY_ENOMEM ≠ TSARRAY_EOK by decide)
  · rw [if_neg h1]
    split at h <;> rename_i h2
    · rw [if_pos h2]
      split at h <;> rename_i h3
      · rw [if_pos h3]
      · rw [if_neg h3]
        split at h <;> rename_i h4
        · exact absurd h (show TSARRAY_ENOMEM ≠ TSARRAY_EOK by decide)
        · rw [if_neg h4]
    · rw [if_neg h2]

theorem tsarray_resize_err_state {a : T α} {n : Nat} {ok : Bool}
    (h : (tsarray_resize a n ok).1 ≠ TSARRAY_EOK) :
    (tsarray_resize a n ok).2 = a := by
  unfold tsarray_resize at h ⊢
  dsimp only at h ⊢
  split at h <;> rename_i h1
  · rw [if_pos h1]
  · rw [if_neg h1]
    split at h <;> rename_i h2
    · rw [if_pos h2]
      split at h <;> rename_i h3
      · exact absurd rfl h
      · rw [if_neg h3]
        split at h <;> rename_i h4
        · rw [if_pos h4]
        · exact absurd rfl h
    · exact absurd rfl h

theorem is_valid_index_zero (s : Nat) (hs : s ≤ SIZE_MAX) :
    is_valid_index 0 s = true := by
  unfold is_valid_index can_size_mult
  simp only [Bool.and_eq_true, Bool.or_eq_true, decide_eq_true_eq]
  refine ⟨⟨⟨Nat.zero_le _, Nat.zero_le _⟩, Or.inr (Nat.zero_le _)⟩, by omega⟩

/-- Rewriting the buffer through a length-preserving transformation
leaves the invariant intact. -/
theorem inv_map_buf {a : T α} (ha : inv a)
    (f : List (Option α) → List (Option α))
    (hf : (f (buf a)).length = (buf a).length) :
    inv { a with items := a.items.map f } := by
  obtain ⟨h1, h2, h3, h4, h5, h6, h7, h8, h9⟩ := ha
  cases hit : a.items with
  | none =>
    have hc0 : a.capacity = 0 := h5.mp hit
    refine ⟨h1, h2, h3, h4, by simp [hc0], ?_, h7, h8, h9⟩
    show (buf { a with items := Option.map f none }).length = a.capacity
    simp [buf, hc0]
  | some l =>
    have hc : a.capacity ≠ 0 := by
      intro h0
      rw [h5.mpr h0] at hit
      simp at hit
    have hbl : l.length = a.capacity := by
      rw [buf, hit] at h6
      simpa using h6
    have hfl : (f l).length = l.length := by
      rw [buf, hit] at hf
      simpa [buf, hit] using hf
    refine ⟨h1, h2, h3, h4, ?_, ?_, h7, h8, h9⟩
    · show Option.map f (some l) = none ↔ a.capacity = 0
      simp [hc]
    · have hb : buf { a with items := Option.map f (some l) } = f l := by
        simp [buf]
      show (buf { a with items := Option.map f (some l) }).length = a.capacity
      rw [hb, hfl, hbl]

theorem tsarray_new_inv {s : Nat} {descOk junk : Bool} {a : T α}
    (hs : 0 < s) (hsz : s ≤ SIZE_MAX)
    (h : tsarray_new s descOk junk = some a) : inv a := by
  unfold tsarray_new at h
  split at h
  · cases h
    exact ⟨Nat.le_refl 0, Nat.zero_le _, Nat.zero_le _, by simp [new_state],
      by simp [new_state], by simp [buf, new_state], hs, hsz,
      is_valid_index_zero s hsz⟩
  · cases h

theorem tsarray_new_of_len_spec {s n : Nat} {descOk junk ok : Bool} {a : T α}
    (hs : 0 < s) (hsz : s ≤ SIZE_MAX) (hn : n ≤ LONG_MAX)
    (h : tsarray_new_of_len s n descOk junk ok = some a) :
    inv a ∧ a.len = n ∧ a.obj_size = s := by
  unfold tsarray_new_of_len at h
  cases hnew : tsarray_new (α := α) s descOk junk with
  | none => rw [hnew] at h; cases h
  | some priv =>
    rw [hnew] at h
    dsimp only at h
    have hpriv : inv priv := tsarray_new_inv hs hsz hnew
    have hobj : priv.obj_size = s := by
      unfold tsarray_new at hnew
      split at hnew
      · cases hnew; rfl
      · cases hnew
    split at h
    · cases h
    · next hok =>
      rw [not_not] at hok
      cases h
      refine ⟨tsarray_resize_inv ok hpriv hn, tsarray_resize_len_of_ok hok, ?_⟩
      rw [(tsarray_resize_meta priv n ok).1, hobj]

theorem tsarray_from_array_spec {src : Option (List (Option α))}
    {src_len s : Nat} {descOk junk ok : Bool} {a : T α}
    (hs : 0 < s) (hsz : s ≤ SIZE_MAX)
    (h : tsarray_from_array src src_len s descOk junk ok = some a) :
    inv a ∧ a.len = src_len ∧ a.obj_size = s := by
  unfold tsarray_from_array at h
  split at h
  · cases h
  · next hfits =>
    rw [not_not] at hfits
    have hlong : src_len ≤ LONG_MAX := by
      unfold ulong_fits_in_long at hfits
      simpa using hfits
    cases hnol : tsarray_new_of_len (α := α) s src_len descOk junk ok with
    | none => rw [hnol] at h; cases h
    | some priv =>
      rw [hnol] at h
      dsimp only at h
      obtain ⟨hpriv, hlen, hobj⟩ := tsarray_new_of_len_spec hs hsz hlong hnol
      split at h
      · cases h
        exact ⟨hpriv, hlen, hobj⟩
      · cases hsrc : src with
        | none => rw [hsrc] at h; cases h
        | some srcbuf =>
          rw [hsrc] at h
          cases h
          refine ⟨inv_map_buf hpriv _ (set_items_length _ _ _), hlen, hobj⟩

theorem tsarray_copy_spec {b : T α} {descOk junk ok : Bool} {a : T α}
    (hb : inv b) (h : tsarray_copy b descOk junk ok = some a) :
    inv a ∧ a.len = b.len ∧ a.obj_size = b.obj_size :=
  tsarray_from_array_spec hb.2.2.2.2.2.2.1 hb.2.2.2.2.2.2.2.1 h

theorem tsarray_new_hint_inv {s hint : Nat} {descOk junk ok : Bool} {a : T α}
    (hs : 0 < s) (hsz : s ≤ SIZE_MAX)
    (h : tsarray_new_hint s hint descOk junk ok = some a) : inv a := by
  unfold tsarray_new_hint at h
  split at h
  · cases h
  · next hvalid =>
    rw [not_not] at hvalid
    cases hnew : tsarray_new (α := α) s descOk junk with
    | none => rw [hnew] at h; cases h
    | some priv =>
      rw [hnew] at h
      dsimp only at h
      obtain ⟨p1, p2, p3, p4, p5, p6, p7, p8, p9⟩ := tsarray_new_inv hs hsz hnew
      have hobj : priv.obj_size = s := by
        unfold tsarray_new at hnew
        split at hnew
        · cases hnew; rfl
        · cases hnew
      have hpriv2 : inv { priv with has_len_hint := true, len_hint := hint } :=
        ⟨p1, p2, p3, p4, p5, p6, p7, p8, by rw [hobj]; exact hvalid⟩
      split at h
      · cases h
      · next hok =>
        cases h
        exact tsarray_resize_inv ok hpriv2 (Nat.zero_le _)

theorem tsarray_append_inv {a : T α} {x : α} {ok : Bool} (ha : inv a) :
    inv (tsarray_append a x ok).2 := by
  unfold tsarray_append
  dsimp only
  split
  · exact ha
  · next hadd =>
    rw [not_not] at hadd
    have hlen : a.len + 1 ≤ LONG_MAX := can_add_within_long_iff.mp hadd
    have hres := tsarray_resize_inv ok ha hlen
    split
    · exact hres
    · exact inv_map_buf hres _ (set_items_length _ _ _)

theorem tsarray_extend_inv {d b : T α} {ok : Bool} (hd : inv d) :
    inv (tsarray_extend d b ok).2 := by
  unfold tsarray_extend
  dsimp only
  split
  · exact hd
  · split
    · exact hd
    · next hadd =>
      rw [not_not] at hadd
      have hlen : d.len + b.len ≤ LONG_MAX := can_add_within_long_iff.mp hadd
      have hres := tsarray_resize_inv ok hd hlen
      split
      · exact hres
      · exact inv_map_buf hres _ (set_items_length _ _ _)

theorem tsarray_extend_self_inv {a : T α} {ok : Bool} (ha : inv a) :
    inv (tsarray_extend_self a ok).2 := by
  unfold tsarray_extend_self
  dsimp only
  split
  · exact ha
  · next hadd =>
    rw [not_not] at hadd
    have hlen : a.len + a.len ≤ LONG_MAX := can_add_within_long_iff.mp hadd
    have hres := tsarray_resize_inv ok ha hlen
    split
    · exact hres
    · exact inv_map_buf hres _ (set_items_length _ _ _)

theorem tsarray_remove_inv {a : T α} {index : Int} {ok : Bool} (ha : inv a) :
    inv (tsarray_remove a index ok).2 := by
  unfold tsarray_remove
  dsimp only
  split
  · exact ha
  · split
    · exact ha
    · next hlow hhigh =>
      have ha1 : inv (if index.toNat < a.len - 1 then
          { a with items := a.items.map (fun l => shift_left l index.toNat a.len) }
          else a) := by
        split
        · next hmid =>
          refine inv_map_buf ha _ ?_
          exact shift_left_length (buf a) index.toNat a.len (by omega)
            (le_trans ha.1 (le_of_eq ha.2.2.2.2.2.1.symm))
        · exact ha
      have hlen1 : a.len - 1 ≤ LONG_MAX := by
        have := ha.2.1
        omega
      exact tsarray_resize_inv ok ha1 hlen1

theorem tsarray_slice_inv {a : T α} {start stop step : Int}
    {descOk junk ok : Bool} {r : T α} (ha : inv a)
    (hstart : 0 ≤ start) (hstop : 0 ≤ stop)
    (h : tsarray_slice a start stop step descOk junk ok = some r) : inv r := by
  have hs : 0 < a.obj_size := ha.2.2.2.2.2.2.1
  have hsz : a.obj_size ≤ SIZE_MAX := ha.2.2.2.2.2.2.2.1
  unfold tsarray_slice at h
  dsimp only at h
  split at h
  · cases h
  · split at h
    · exact tsarray_new_inv hs hsz h
    · next hempty =>
      push_neg at hempty
      obtain ⟨hne, hdir, hlo⟩ := hempty
      split at h
      · exact (tsarray_from_array_spec hs hsz h).1
      · have hlolt : min start stop < min (max start stop) ((a.len : Int)) := by
          rcases max_cases start stop with ⟨hm, hle⟩ | ⟨hm, hlt⟩ <;>
            rcases min_cases start stop with ⟨hm2, hle2⟩ | ⟨hm2, hlt2⟩ <;>
              omega
        have hslice : (min (max start stop) ((a.len : Int)) - min start stop - 1).toNat /
            step.natAbs + 1 ≤ a.len := by
          have h1 : (min (max start stop) ((a.len : Int)) - min start stop - 1).toNat /
              step.natAbs ≤ (min (max start stop) ((a.len : Int)) - min start stop - 1).toNat :=
            Nat.div_le_self _ _
          have h2 : min (max start stop) ((a.len : Int)) ≤ (a.len : Int) :=
            min_le_right _ _
          have h3 : (0 : Int) ≤ min start stop := le_min hstart hstop
          omega
        cases hnol : tsarray_new_of_len (α := α) a.obj_size
            ((min (max start stop) ((a.len : Int)) - min start stop - 1).toNat /
              step.natAbs + 1) descOk junk ok with
        | none => rw [hnol] at h; cases h
        | some priv =>
          rw [hnol] at h
          dsimp only at h
          cases h
          obtain ⟨hpriv, _, _⟩ := tsarray_new_of_len_spec hs hsz
            (le_trans hslice ha.2.1) hnol
          exact inv_map_buf hpriv _ (slice_loop_length _ _ _ _ _ _)

/-! ## Claim C2 -/

/-- Claim C2: after every public operation on a live container (whether
it returns success or an error), the container satisfies the data-model
invariants: `0 ≤ length ≤ capacity`; the buffer is absent iff
`capacity = 0`; `length ≤ MAX_INDEX` and `capacity ≤ MAX_INDEX`; and
`capacity · element_size` does not overflow the byte-address space
(`inv` bundles exactly these, plus the machine-representability side
conditions).  Constructors establish `inv`; every mutator preserves it on
both its success and its error paths.  `tsarray_len`, `tsarray_min` and
`tsarray_max` do not write to the container; slice arguments are
restricted to non-negative start/stop, since negative ones make the C
code read out of bounds (see the C10 theorems). -/
theorem public_operations_preserve_invariants (α : Type) :
    (∀ (s : Nat) (descOk junk : Bool) (a : T α), 0 < s → s ≤ SIZE_MAX →
        tsarray_new s descOk junk = some a → inv a) ∧
    (∀ (s hint : Nat) (descOk junk ok : Bool) (a : T α), 0 < s →
        s ≤ SIZE_MAX → tsarray_new_hint s hint descOk junk ok = some a →
        inv a) ∧
    (∀ (src : Option (List (Option α))) (src_len s : Nat)
        (descOk junk ok : Bool) (a : T α), 0 < s → s ≤ SIZE_MAX →
        tsarray_from_array src src_len s descOk junk ok = some a → inv a) ∧
    (∀ (b : T α) (descOk junk ok : Bool) (a : T α), inv b →
        tsarray_copy b descOk junk ok = some a → inv a) ∧
    (∀ (a : T α) (start stop step : Int) (descOk junk ok : Bool) (r : T α),
        inv a → 0 ≤ start → 0 ≤ stop →
        tsarray_slice a start stop step descOk junk ok = some r → inv r) ∧
    (∀ (a : T α) (x : α) (ok : Bool), inv a → inv (tsarray_append a x ok).2) ∧
    (∀ (d b : T α) (ok : Bool), inv d → inv (tsarray_extend d b ok).2) ∧
    (∀ (a : T α) (ok : Bool), inv a → inv (tsarray_extend_self a ok).2) ∧
    (∀ (a : T α) (index : Int) (ok : Bool), inv a →
        inv (tsarray_remove a index ok).2) := by
  refine ⟨?_, ?_, ?_, ?_, ?_, ?_, ?_, ?_, ?_⟩
  · intro s descOk junk a hs hsz h
    exact tsarray_new_inv hs hsz h
  · intro s hint descOk junk ok a hs hsz h
    exact tsarray_new_hint_inv hs hsz h
  · intro src src_len s descOk junk ok a hs hsz h
    exact (tsarray_from_array_spec hs hsz h).1
  · intro b descOk junk ok a hb h
    exact (tsarray_copy_spec hb h).1
  · intro a start stop step descOk junk ok r ha hstart hstop h
    exact tsarray_slice_inv ha hstart hstop h
  · intro a x ok ha
    exact tsarray_append_inv ha
  · intro d b ok hd
    exact tsarray_extend_inv hd
  · intro a ok ha
    exact tsarray_extend_self_inv ha
  · intro a index ok ha
    exact tsarray_remove_inv ha

/-- Witness for C2: a concrete append, remove and slice on live
containers, with the invariant checked on the results. -/
theorem public_operations_preserve_invariants_witness :
    (inv exampleOne ∧ inv (tsarray_append exampleOne 7 true).2) ∧
    (inv exampleShrink ∧ inv (tsarray_remove exampleShrink 0 false).2) ∧
    ((0 : Int) ≤ 8 ∧ (0 : Int) ≤ 4 ∧
      ∀ r, tsarray_slice exampleTen 8 4 (-1) true false true = some r →
        inv r) :=
  ⟨⟨by decide, (public_operations_preserve_invariants Int).2.2.2.2.2.1
      exampleOne 7 true (by decide)⟩,
   ⟨by decide, (public_operations_preserve_invariants Int).2.2.2.2.2.2.2.2
      exampleShrink 0 false (by decide)⟩,
   by decide, by decide,
   fun r h => (public_operations_preserve_invariants Int).2.2.2.2.1
     exampleTen 8 4 (-1) true false true r (by decide) (by decide) (by decide) h⟩

/-! ## Error codes produced by tsarray_resize -/

theorem tsarray_resize_code (a : T α) (n : Nat) (ok : Bool) :
    (tsarray_resize a n ok).1 = TSARRAY_EOK ∨
    ((tsarray_resize a n ok).1 = TSARRAY_ENOMEM ∧
      (SIZE_MAX < n ∨ can_size_mult n a.obj_size = false ∨ ok = false)) := by
  unfold tsarray_resize
  dsimp only
  split
  · next hguard =>
    refine Or.inr ⟨rfl, ?_⟩
    rcases hguard with hg | hg
    · exact Or.inl hg
    · exact Or.inr (Or.inl (by simpa using hg))
  · split
    · split
      · exact Or.inl rfl
      · next hfail =>
        split
        · next hnz =>
          refine Or.inr ⟨rfl, Or.inr (Or.inr ?_)⟩
          rcases Bool.eq_false_or_eq_true ok with hok | hok
          · exact absurd ⟨hok, hnz⟩ hfail
          · exact hok
        · exact Or.inl rfl
    · exact Or.inl rfl

/-! ## Claim C6 -/

/-- Counterexample to claim C6 as stated: `exampleHuge` satisfies the
container invariants, and `len + 1 = 2` is NOT a valid index (its byte
size `2 · 2^63` exceeds `SIZE_MAX`), so the claim requires `EOVERFLOW`;
but `tsarray_append` returns `ENOMEM` (the addressability check lives in
`tsarray_resize`, which reports `TSARRAY_ENOMEM`). -/
theorem append_enomem_on_unaddressable_length :
    inv exampleHuge ∧
    is_valid_index (exampleHuge.len + 1) exampleHuge.obj_size = false ∧
    (tsarray_append exampleHuge () true).1 = TSARRAY_ENOMEM ∧
    (tsarray_append exampleHuge () true).1 ≠ TSARRAY_EOVERFLOW := by decide

/-- Claim C6 amended: append returns `EOVERFLOW` exactly when `length+1`
is not representable in the signed index type; when `length+1` is
representable but its byte size is not addressable, or the allocation
fails, append returns `ENOMEM` instead; and on every failure the
container is returned unchanged. -/
theorem append_error_contract (a : T α) (x : α) (ok : Bool) (_ha : inv a) :
    ((tsarray_append a x ok).1 = TSARRAY_EOVERFLOW ↔ LONG_MAX < a.len + 1) ∧
    ((tsarray_append a x ok).1 ≠ TSARRAY_EOK → (tsarray_append a x ok).2 = a) ∧
    ((tsarray_append a x ok).1 = TSARRAY_ENOMEM →
      can_size_mult (a.len + 1) a.obj_size = false ∨ ok = false) := by
  unfold tsarray_append
  dsimp only
  split
  · next hadd =>
    rw [can_add_within_long_iff] at hadd
    refine ⟨⟨fun _ => by omega, fun _ => rfl⟩, fun _ => rfl, fun hc => ?_⟩
    exact absurd hc (show TSARRAY_EOVERFLOW ≠ TSARRAY_ENOMEM by decide)
  · next hadd =>
    rw [not_not, can_add_within_long_iff] at hadd
    rcases tsarray_resize_code a (a.len + 1) ok with hcode | ⟨hcode, hreason⟩
    · rw [if_neg (by rw [hcode]; exact not_not_intro rfl)]
      refine ⟨⟨fun hc => ?_, fun hc => by omega⟩, fun hc => absurd rfl hc,
        fun hc => ?_⟩
      · exact absurd hc (show TSARRAY_EOK ≠ TSARRAY_EOVERFLOW by decide)
      · exact absurd hc (show TSARRAY_EOK ≠ TSARRAY_ENOMEM by decide)
    · rw [if_pos (by rw [hcode]; decide)]
      have hsz : ¬ SIZE_MAX < a.len + 1 := by
        have := long_le_size
        omega
      refine ⟨⟨fun hc => ?_, fun hc => by omega⟩, fun _ => ?_, fun _ => ?_⟩
      · rw [hcode] at hc
        exact absurd hc (show TSARRAY_ENOMEM ≠ TSARRAY_EOVERFLOW by decide)
      · exact tsarray_resize_err_state (by rw [hcode]; decide)
      · rcases hreason with hr | hr | hr
        · exact absurd hr hsz
        · exact Or.inl hr
        · exact Or.inr hr

/-- Witness for the amended C6: appending to `exampleHuge` (a failing
append) and checking the contract's three conjuncts concretely. -/
theorem append_error_contract_witness :
    inv exampleHuge ∧
    (((tsarray_append exampleHuge () true).1 = TSARRAY_EOVERFLOW ↔
        LONG_MAX < exampleHuge.len + 1) ∧
      ((tsarray_append exampleHuge () true).1 ≠ TSARRAY_EOK →
        (tsarray_append exampleHuge () true).2 = exampleHuge) ∧
      ((tsarray_append exampleHuge () true).1 = TSARRAY_ENOMEM →
        can_size_mult (exampleHuge.len + 1) exampleHuge.obj_size = false ∨
          true = false)) :=
  ⟨by decide, append_error_contract exampleHuge () true (by decide)⟩

/-! ## Claim C3 -/

/-- Counterexample to claim C3 as stated: removing index 0 from
`exampleShrink` (capacity 12, length 6) plans a shrink to capacity 9;
when that reallocation fails the C code returns `TSARRAY_ENOMEM` and the
logical length is NOT decremented (it stays 6), while the claim demands
a success return with length 5. -/
theorem remove_shrink_failure_counterexample :
    inv exampleShrink ∧
    planned_capacity exampleShrink (exampleShrink.len - 1) = 9 ∧
    (tsarray_remove exampleShrink 0 false).1 = TSARRAY_ENOMEM ∧
    (tsarray_remove exampleShrink 0 false).1 ≠ TSARRAY_EOK ∧
    (tsarray_remove exampleShrink 0 false).2.len = 6 := by decide

/-- Claim C3 amended: when the shrink reallocation performed at the end
of remove fails (the planner picked a different non-zero capacity and
the allocation oracle refuses), remove returns `ENOMEM`, the logical
length is NOT decremented, and the buffer keeps its old capacity (the
element has nevertheless already been shifted out of the buffer). -/
theorem remove_shrink_failure (a : T α) (index : Int) (ha : inv a)
    (h0 : 0 ≤ index) (hidx : index < (a.len : Int))
    (hplan : planned_capacity a (a.len - 1) ≠ a.capacity)
    (hnz : planned_capacity a (a.len - 1) ≠ 0) :
    (tsarray_remove a index false).1 = TSARRAY_ENOMEM ∧
    (tsarray_remove a index false).2.len = a.len ∧
    (tsarray_remove a index false).2.capacity = a.capacity := by
  obtain ⟨h1, h2, h3, h4, h5, h6, h7, h8, h9⟩ := ha
  unfold tsarray_remove
  dsimp only
  rw [if_neg (not_lt.mpr h0), if_neg (not_le.mpr hidx)]
  set a1 := (if index.toNat < a.len - 1 then
      { a with items := a.items.map (fun l => shift_left l index.toNat a.len) }
      else a) with ha1
  have hmeta : a1.obj_size = a.obj_size ∧ a1.capacity = a.capacity ∧
      a1.len = a.len ∧ a1.len_hint = a.len_hint ∧
      a1.has_len_hint = a.has_len_hint := by
    rw [ha1]
    split <;> exact ⟨rfl, rfl, rfl, rfl, rfl⟩
  have hplan1 : planned_capacity a1 (a.len - 1) = planned_capacity a (a.len - 1) := by
    unfold planned_capacity
    rw [hmeta.1, hmeta.2.1, hmeta.2.2.2.1, hmeta.2.2.2.2]
  have hguard : ¬ (SIZE_MAX < a.len - 1 ∨
      ¬ can_size_mult (a.len - 1) a1.obj_size = true) := by
    push_neg
    have hls := long_le_size
    refine ⟨by omega, ?_⟩
    rw [hmeta.1]
    refine mul_le_can_size_mult ?_
    calc (a.len - 1) * a.obj_size ≤ a.capacity * a.obj_size :=
        Nat.mul_le_mul_right _ (by omega)
    _ ≤ SIZE_MAX := h4
  unfold tsarray_resize
  dsimp only
  rw [if_neg hguard, if_pos (by rw [hplan1, hmeta.2.1]; exact hplan),
    if_neg (by simp), if_pos (by rw [hplan1]; exact hnz)]
  exact ⟨rfl, hmeta.2.2.1, hmeta.2.1⟩

/-- Witness for the amended C3: the shrink-failure scenario on
`exampleShrink` concretely. -/
theorem remove_shrink_failure_witness :
    (inv exampleShrink ∧ (0 : Int) ≤ 0 ∧ (0 : Int) < (exampleShrink.len : Int) ∧
      planned_capacity exampleShrink (exampleShrink.len - 1) ≠
        exampleShrink.capacity ∧
      planned_capacity exampleShrink (exampleShrink.len - 1) ≠ 0) ∧
    ((tsarray_remove exampleShrink 0 false).1 = TSARRAY_ENOMEM ∧
      (tsarray_remove exampleShrink 0 false).2.len = exampleShrink.len ∧
      (tsarray_remove exampleShrink 0 false).2.capacity =
        exampleShrink.capacity) :=
  ⟨⟨by decide, by decide, by decide, by decide, by decide⟩,
   remove_shrink_failure exampleShrink 0 (by decide) (by decide) (by decide)
     (by decide) (by decide)⟩

/-! ## Claim C7 -/

/-- Claim C7 is wrong about the code: `tsarray_new` executes
`priv->len_hint = false` but never initializes `has_len_hint`, so a
container created by `tsarray_new` keeps whatever junk the malloc'd
memory held in that flag.  When the junk is `true`, the container's
subsequent capacity decisions use the HINTED planner (with hint 0), not
the default planner: shrinking from capacity 10 to length 5 yields
capacity 9 under the hinted planner where the default planner's
hysteresis would keep 10. -/
theorem tsarray_new_leaves_hint_flag_uninitialized :
    (tsarray_new (α := Unit) 4 true true).map (fun a => a.has_len_hint) =
      some true ∧
    (tsarray_new (α := Unit) 4 true true).map (fun a => a.len_hint) =
      some 0 ∧
    calc_new_capacity 4 10 5 = 10 ∧
    calc_new_capacity_with_hint 4 10 5 0 = 9 := by decide

/-! ## Claim C4 -/

theorem take_getD_of_lt (l : List (Option α)) (n i : Nat) (h : i < n) :
    (l.take n).getD i none = l.getD i none := by
  rw [List.getD_eq_getElem?_getD, List.getD_eq_getElem?_getD,
    List.getElem?_take, if_pos h]

/-- Claim C4: for every container `C` of length `n` whose doubled length
is a valid index, a successful `extend(C, C)` leaves `C` with length
`2n` and contents `[x₀, …, xₙ₋₁, x₀, …, xₙ₋₁]`: the original elements
unchanged in positions `0 … n−1` and a copy of them in positions
`n … 2n−1`, even when the resize reallocates the buffer. -/
theorem extend_self_doubles (a : T α) (ha : inv a)
    (hv : is_valid_index (a.len + a.len) a.obj_size = true) :
    (tsarray_extend_self a true).1 = TSARRAY_EOK ∧
    (tsarray_extend_self a true).2.len = a.len + a.len ∧
    (∀ i, i < a.len →
      get_item (tsarray_extend_self a true).2 i = get_item a i ∧
      get_item (tsarray_extend_self a true).2 (a.len + i) = get_item a i) := by
  obtain ⟨h2n, h2ns⟩ := is_valid_index_spec hv
  have hcs : can_size_mult (a.len + a.len) a.obj_size = true :=
    mul_le_can_size_mult h2ns
  have hok := tsarray_resize_ok ha h2n hcs
  have hinv2 := tsarray_resize_inv (a := a) (n := a.len + a.len) true ha h2n
  have hge : a.len + a.len ≤ planned_capacity a (a.len + a.len) :=
    planned_capacity_ge a (a.len + a.len) h2n
  unfold tsarray_extend_self
  dsimp only
  rw [if_neg (not_not_intro (can_add_within_long_iff.mpr h2n))]
  rw [hok.1, if_neg (show ¬ (TSARRAY_EOK ≠ 0) by decide)]
  obtain ⟨_, hlen, hcap, _, _, _, hpres⟩ := hok
  set r2 := (tsarray_resize a (a.len + a.len) true).2 with hr2
  cases hit : r2.items with
  | none =>
    have hc0 : r2.capacity = 0 := hinv2.2.2.2.2.1.mp hit
    have hn0 : a.len = 0 := by
      rw [hcap] at hc0
      omega
    refine ⟨rfl, by simpa using hlen, fun i hi => ?_⟩
    rw [hn0] at hi
    omega
  | some l =>
    have hllen : l.length = planned_capacity a (a.len + a.len) := by
      have h6 := hinv2.2.2.2.2.2.1
      rw [buf, hit] at h6
      rw [← hcap]
      simpa using h6
    have htake : (l.take a.len).length = a.len := by
      rw [List.length_take]
      omega
    refine ⟨rfl, by simpa using hlen, fun i hi => ?_⟩
    have hres_len : ({ r2 with
        items := some (set_items l a.len (l.take a.len)) }).len =
        a.len + a.len := by
      simpa using hlen
    have hbufR : buf { r2 with
        items := some (set_items l a.len (l.take a.len)) } =
        set_items l a.len (l.take a.len) := by
      simp [buf]
    have hlow : get_item { r2 with
        items := some (set_items l a.len (l.take a.len)) } i =
        get_item a i := by
      unfold get_item raw_get
      rw [if_pos (by rw [hres_len]; omega), if_pos hi, hbufR]
      rw [set_items_getD_of_lt _ _ _ _ (by omega)]
      have hp := hpres i (by omega)
      unfold raw_get at hp
      rw [buf, hit] at hp
      simpa using hp
    have hhigh : get_item { r2 with
        items := some (set_items l a.len (l.take a.len)) } (a.len + i) =
        get_item a i := by
      unfold get_item raw_get
      rw [if_pos (by rw [hres_len]; omega), if_pos hi, hbufR]
      have hmem := set_items_getD_of_mem (l.take a.len) l a.len i
        (by omega) (by omega)
      rw [hmem, take_getD_of_lt l a.len i hi]
      have hp := hpres i (by omega)
      unfold raw_get at hp
      rw [buf, hit] at hp
      simpa using hp
    exact ⟨hlow, hhigh⟩

/-- Witness for C4: doubling the two-element container `[0, 1]` with
`extend(C, C)` gives `[0, 1, 0, 1]`. -/
theorem extend_self_doubles_witness :
    (inv exampleTwo ∧
      is_valid_index (exampleTwo.len + exampleTwo.len) exampleTwo.obj_size =
        true) ∧
    ((tsarray_extend_self exampleTwo true).1 = TSARRAY_EOK ∧
      (tsarray_extend_self exampleTwo true).2.len =
        exampleTwo.len + exampleTwo.len ∧
      (∀ i, i < exampleTwo.len →
        get_item (tsarray_extend_self exampleTwo true).2 i =
          get_item exampleTwo i ∧
        get_item (tsarray_extend_self exampleTwo true).2 (exampleTwo.len + i) =
          get_item exampleTwo i)) :=
  ⟨⟨by decide, by decide⟩,
   extend_self_doubles exampleTwo (by decide) (by decide)⟩

/-! ## Claim C9 -/

theorem same_sign_neg_one (d : Int) : same_sign (-1) d = decide (d < 0) := by
  unfold same_sign
  by_cases h : d < 0
  · have h2 : ¬ d > 0 := by omega
    simp [h, h2]
  · by_cases h3 : d > 0 <;> simp [h, h3]

theorem same_sign_one (d : Int) : same_sign 1 d = decide (0 < d) := by
  unfold same_sign
  by_cases h : d > 0
  · have h2 : ¬ d < 0 := by omega
    simp [h, h2]
  · by_cases h3 : d < 0 <;> simp [h, h3]

/-- Invariant of the scan loop: if the candidate is the
earliest-position best of the prefix already scanned, the final answer
is the earliest-position best of the whole range (with `f` the value the
comparison orders by, direction folded into `f`). -/
theorem scan_loop_spec (l : List (Option α))
    (cmp : Option α → Option α → Int) (dir : Int) (f : Option α → Int)
    (htest : ∀ p q, same_sign dir (cmp p q) = decide (f p < f q)) :
    ∀ (fuel cand i : Nat), cand < i →
      (∀ k, k < i → f (l.getD cand none) ≤ f (l.getD k none) ∧
        (k < cand → f (l.getD cand none) < f (l.getD k none))) →
      scan_loop l cmp dir fuel cand i < i + fuel ∧
      (∀ k, k < i + fuel →
        f (l.getD (scan_loop l cmp dir fuel cand i) none) ≤
          f (l.getD k none) ∧
        (k < scan_loop l cmp dir fuel cand i →
          f (l.getD (scan_loop l cmp dir fuel cand i) none) <
            f (l.getD k none))) := by
  intro fuel
  induction fuel with
  | zero =>
    intro cand i hci hpre
    have h0 : scan_loop l cmp dir 0 cand i = cand := rfl
    rw [h0]
    exact ⟨by omega, fun k hk => hpre k (by omega)⟩
  | succ fl ih =>
    intro cand i hci hpre
    show scan_loop l cmp dir (fl + 1) cand i < i + (fl + 1) ∧ _
    unfold scan_loop
    dsimp only
    rw [htest]
    by_cases hrepl : f (l.getD i none) < f (l.getD cand none)
    · rw [if_pos (by simpa using hrepl)]
      have hpre2 : ∀ k, k < i + 1 → f (l.getD i none) ≤ f (l.getD k none) ∧
          (k < i → f (l.getD i none) < f (l.getD k none)) := by
        intro k hk
        rcases Nat.lt_or_ge k i with hki | hki
        · have hp := hpre k hki
          exact ⟨by omega, fun _ => by omega⟩
        · have hk_eq : k = i := by omega
          subst hk_eq
          exact ⟨le_refl _, fun hc => absurd hc (by omega)⟩
      have hrec := ih i (i + 1) (by omega) hpre2
      have harr : i + 1 + fl = i + (fl + 1) := by omega
      rw [harr] at hrec
      exact hrec
    · rw [if_neg (by simpa using hrepl)]
      have hpre2 : ∀ k, k < i + 1 → f (l.getD cand none) ≤ f (l.getD k none) ∧
          (k < cand → f (l.getD cand none) < f (l.getD k none)) := by
        intro k hk
        rcases Nat.lt_or_ge k i with hki | hki
        · exact hpre k hki
        · have hk_eq : k = i := by omega
          subst hk_eq
          exact ⟨by omega, fun hc => absurd hc (by omega)⟩
      have hrec := ih cand (i + 1) (by omega) hpre2
      have harr : i + 1 + fl = i + (fl + 1) := by omega
      rw [harr] at hrec
      exact hrec

/-- Claim C9: `min` and `max` return `NONE` on every empty container;
on every non-empty container they return a handle to an element whose
value is minimal (resp. maximal) under the comparison, and on ties both
return the earliest position — the scan replaces its candidate only on a
strict comparison in the scan's direction.  The comparison is modelled
as an arbitrary key-difference function (the C convention
`cmp(a,b) = key(a) - key(b)`). -/
theorem minmax_scan_correct (a : T α) (cmp : Option α → Option α → Int)
    (key : Option α → Int) (hcmp : ∀ p q, cmp p q = key p - key q) :
    (a.len = 0 → tsarray_min a cmp = none ∧ tsarray_max a cmp = none) ∧
    (0 < a.len →
      (∃ j, tsarray_min a cmp = some j ∧ j < a.len ∧
        ∀ k, k < a.len → key (get_item a j) ≤ key (get_item a k) ∧
          (k < j → key (get_item a j) < key (get_item a k))) ∧
      (∃ j, tsarray_max a cmp = some j ∧ j < a.len ∧
        ∀ k, k < a.len → key (get_item a k) ≤ key (get_item a j) ∧
          (k < j → key (get_item a k) < key (get_item a j)))) := by
  have hget : ∀ k, k < a.len → get_item a k = (buf a).getD k none := by
    intro k hk
    unfold get_item raw_get
    rw [if_pos hk]
  constructor
  · intro h0
    unfold tsarray_min tsarray_max minmax_scan
    rw [if_pos h0, if_pos h0]
    exact ⟨rfl, rfl⟩
  · intro hpos
    constructor
    · have htest : ∀ p q : Option α, same_sign (-1) (cmp p q) =
          decide (key p < key q) := by
        intro p q
        rw [hcmp, same_sign_neg_one]
        exact decide_eq_decide.mpr (by omega)
      have hbase : ∀ k, k < 1 →
          key ((buf a).getD 0 none) ≤ key ((buf a).getD k none) ∧
          (k < 0 → key ((buf a).getD 0 none) < key ((buf a).getD k none)) := by
        intro k hk
        have hk0 : k = 0 := by omega
        subst hk0
        exact ⟨le_refl _, fun hc => absurd hc (by omega)⟩
      have hrec := scan_loop_spec (buf a) cmp (-1) key htest (a.len - 1) 0 1
        (by omega) hbase
      have hlen : 1 + (a.len - 1) = a.len := by omega
      rw [hlen] at hrec
      refine ⟨scan_loop (buf a) cmp (-1) (a.len - 1) 0 1, ?_, hrec.1, ?_⟩
      · unfold tsarray_min minmax_scan
        rw [if_neg (by omega)]
      · intro k hk
        rw [hget k hk, hget _ hrec.1]
        exact hrec.2 k hk
    · have htest : ∀ p q : Option α, same_sign 1 (cmp p q) =
          decide ((fun r => -(key r)) p < (fun r => -(key r)) q) := by
        intro p q
        rw [hcmp, same_sign_one]
        refine decide_eq_decide.mpr ?_
        dsimp only
        omega
      have hbase : ∀ k, k < 1 →
          (fun r => -(key r)) ((buf a).getD 0 none) ≤
            (fun r => -(key r)) ((buf a).getD k none) ∧
          (k < 0 → (fun r => -(key r)) ((buf a).getD 0 none) <
            (fun r => -(key r)) ((buf a).getD k none)) := by
        intro k hk
        have hk0 : k = 0 := by omega
        subst hk0
        exact ⟨le_refl _, fun hc => absurd hc (by omega)⟩
      have hrec := scan_loop_spec (buf a) cmp 1 (fun r => -(key r)) htest
        (a.len - 1) 0 1 (by omega) hbase
      have hlen : 1 + (a.len - 1) = a.len := by omega
      rw [hlen] at hrec
      refine ⟨scan_loop (buf a) cmp 1 (a.len - 1) 0 1, ?_, hrec.1, ?_⟩
      · unfold tsarray_max minmax_scan
        rw [if_neg (by omega)]
      · intro k hk
        rw [hget k hk, hget _ hrec.1]
        have hr := hrec.2 k hk
        dsimp only at hr
        exact ⟨by omega, fun hkj => by have := hr.2 hkj; omega⟩

/-- Witness for C9: on the container holding 47 three times, both `min`
and `max` return a handle to index 0 (spec scenario 7). -/
theorem minmax_scan_correct_witness :
    ((∀ p q : Option Int, cmpInt p q = p.getD 0 - q.getD 0) ∧
      0 < exampleTies.len) ∧
    ((∃ j, tsarray_min exampleTies cmpInt = some j ∧ j < exampleTies.len ∧
        ∀ k, k < exampleTies.len →
          (get_item exampleTies j).getD 0 ≤ (get_item exampleTies k).getD 0 ∧
          (k < j → (get_item exampleTies j).getD 0 <
            (get_item exampleTies k).getD 0)) ∧
      (∃ j, tsarray_max exampleTies cmpInt = some j ∧ j < exampleTies.len ∧
        ∀ k, k < exampleTies.len →
          (get_item exampleTies k).getD 0 ≤ (get_item exampleTies j).getD 0 ∧
          (k < j → (get_item exampleTies k).getD 0 <
            (get_item exampleTies j).getD 0))) ∧
    tsarray_min exampleTies cmpInt = some 0 ∧
    tsarray_max exampleTies cmpInt = some 0 :=
  ⟨⟨fun p q => rfl, by decide⟩,
   (minmax_scan_correct exampleTies cmpInt (fun p => p.getD 0)
      (fun p q => rfl)).2 (by decide),
   by decide, by decide⟩

/-! ## Source indices read by tsarray_slice -/

/-- In the stepped/backward branch of slice (`step ∉ {0, 1}`), with
non-negative start and stop and a non-empty slice, every index the walk
reads, `real_start + i·step` for `i < slice_len`, lies within
`[0, len)`. -/
theorem slice_step_read_in_range (len : Nat) (start stop step : Int)
    (hstart : 0 ≤ start) (hstop : 0 ≤ stop) (hstep0 : step ≠ 0)
    (hne : start ≠ stop) (hdir : start < stop ↔ 0 < step)
    (hlo : min start stop < (len : Int)) :
    ∀ i : Nat,
      i < (min (max start stop) ((len : Int)) - min start stop - 1).toNat /
          step.natAbs + 1 →
      0 ≤ min start ((len : Int) - 1) + (i : Int) * step ∧
        min start ((len : Int) - 1) + (i : Int) * step < (len : Int) := by
  intro i hi
  have hk1 : 1 ≤ step.natAbs := Int.natAbs_pos.mpr hstep0
  have hlohi : min start stop < min (max start stop) ((len : Int)) := by
    omega
  have hd1 : i * step.natAbs ≤
      (min (max start stop) ((len : Int)) - min start stop - 1).toNat := by
    have h1 := Nat.div_mul_le_self
      (min (max start stop) ((len : Int)) - min start stop - 1).toNat
      step.natAbs
    have h2 : i ≤
        (min (max start stop) ((len : Int)) - min start stop - 1).toNat /
          step.natAbs := by omega
    calc i * step.natAbs ≤
        ((min (max start stop) ((len : Int)) - min start stop - 1).toNat /
          step.natAbs) * step.natAbs := Nat.mul_le_mul_right _ h2
    _ ≤ _ := h1
  have hA_le : (i : Int) * (step.natAbs : Int) ≤
      min (max start stop) ((len : Int)) - min start stop - 1 := by
    have h3 : ((i * step.natAbs : Nat) : Int) ≤
        (((min (max start stop) ((len : Int)) - min start stop - 1).toNat :
          Nat) : Int) := by
      exact_mod_cast hd1
    push_cast at h3
    omega
  have hA_nn : (0 : Int) ≤ (i : Int) * (step.natAbs : Int) := by positivity
  rcases lt_trichotomy step 0 with hsn | hs0 | hsp
  · have hkeq : ((step.natAbs : Nat) : Int) = -step := by
      omega
    have hmul : (i : Int) * step = -((i : Int) * (step.natAbs : Int)) := by
      rw [hkeq]
      ring
    rw [hmul]
    have hss : stop < start := by
      rcases lt_trichotomy start stop with h | h | h
      · exact absurd (hdir.mp h) (by omega)
      · exact absurd h hne
      · exact h
    omega
  · exact absurd hs0 hstep0
  · have hkeq : ((step.natAbs : Nat) : Int) = step := by
      omega
    have hmul : (i : Int) * step = (i : Int) * (step.natAbs : Int) := by
      rw [hkeq]
    rw [hmul]
    have hss : start < stop := hdir.mpr hsp
    omega

/-! ## Claim C10 -/

/-- Counterexample to claim C10 as stated: the slice call
`slice([10,11,12], start = -2, stop = 2, step = 1)` is not an empty
case, and its `step = 1` branch reads source index `-2` — outside
`[0, 3)`.  Concretely, the model's slice then returns a container whose
slot 0 holds junk although every source element is initialized. -/
theorem slice_reads_out_of_range_counterexample :
    ((-2 : Int) ∈ slice_read_indices 3 (-2) 2 1) ∧ ¬ ((0 : Int) ≤ -2) ∧
    inv exampleThree ∧
    (tsarray_slice exampleThree (-2) 2 1 true false true).map
      (fun r => get_item r 0) = some none := by decide

/-- Claim C10 amended: for every slice call with NON-NEGATIVE start and
stop (and any non-zero step, forward or backward), every source index
the operation reads lies within `[0, source.length)`.  With a negative
start or stop the claim fails (see the counterexample): the code only
caps `real_start` from above, never from below. -/
theorem slice_reads_within_bounds (len : Nat) (start stop step : Int)
    (hstart : 0 ≤ start) (hstop : 0 ≤ stop) :
    ∀ idx ∈ slice_read_indices len start stop step,
      0 ≤ idx ∧ idx < (len : Int) := by
  intro idx hidx
  unfold slice_read_indices at hidx
  dsimp only at hidx
  split at hidx
  · simp at hidx
  · next hstep0 =>
    split at hidx
    · simp at hidx
    · next hempty =>
      push_neg at hempty
      obtain ⟨hne, hdec, hlo⟩ := hempty
      have hdir : start < stop ↔ 0 < step := decide_eq_decide.mp hdec
      split at hidx
      · simp only [List.mem_map, List.mem_range] at hidx
        obtain ⟨j, hj, rfl⟩ := hidx
        have hlohi : min start stop < min (max start stop) ((len : Int)) := by
          omega
        omega
      · simp only [List.mem_map, List.mem_range] at hidx
        obtain ⟨i, hi2, rfl⟩ := hidx
        exact slice_step_read_in_range len start stop step hstart hstop
          hstep0 hne hdir hlo i hi2

/-- Witness for the amended C10: all indices read by the backward slice
`(8, 4, -1)` of a ten-element container lie within `[0, 10)`. -/
theorem slice_reads_within_bounds_witness :
    ((0 : Int) ≤ 8 ∧ (0 : Int) ≤ 4) ∧
    (∀ idx ∈ slice_read_indices 10 8 4 (-1), 0 ≤ idx ∧ idx < (10 : Int)) ∧
    slice_read_indices 10 8 4 (-1) = [8, 7, 6, 5] :=
  ⟨⟨by decide, by decide⟩,
   fun idx hidx => slice_reads_within_bounds 10 8 4 (-1) (by decide)
     (by decide) idx hidx,
   by decide⟩

/-! ## Claim C8 -/

/-- Claim C8: for every slice call with `step ∉ {0, +1}` that does not
hit an empty case (and in-bounds, i.e. non-negative, start and stop),
the result has length `1 + (hi − lo − 1) / |step|` — with
`lo = min(start, stop)` and `hi = min(max(start, stop), len)` — and its
element `i` equals `source[real_start + i·step]` with
`real_start = min(start, len − 1)`. -/
theorem slice_step_spec (a : T α) (start stop step : Int) (junk : Bool)
    (ha : inv a) (hstart : 0 ≤ start) (hstop : 0 ≤ stop)
    (hstep0 : step ≠ 0) (hstep1 : step ≠ 1) (hne : start ≠ stop)
    (hdir : start < stop ↔ 0 < step) (hlo : min start stop < (a.len : Int)) :
    ∃ r, tsarray_slice a start stop step true junk true = some r ∧
      r.len = (min (max start stop) ((a.len : Int)) - min start stop - 1).toNat /
        step.natAbs + 1 ∧
      ∀ i : Nat, i < r.len →
        get_item r i =
          get_item a (min start ((a.len : Int) - 1) + (i : Int) * step).toNat := by
  obtain ⟨h1, h2, h3, h4, h5, h6, h7, h8, h9⟩ := ha
  set sl := (min (max start stop) ((a.len : Int)) - min start stop - 1).toNat /
      step.natAbs + 1 with hsl
  have hlolt : min start stop < min (max start stop) ((a.len : Int)) := by
    omega
  have hsl_le : sl ≤ a.len := by
    have hd := Nat.div_le_self
      (min (max start stop) ((a.len : Int)) - min start stop - 1).toNat
      step.natAbs
    omega
  have hslLM : sl ≤ LONG_MAX := le_trans hsl_le h2
  have hcs : can_size_mult sl a.obj_size = true := by
    refine mul_le_can_size_mult ?_
    calc sl * a.obj_size ≤ a.capacity * a.obj_size :=
        Nat.mul_le_mul_right _ (le_trans hsl_le h1)
    _ ≤ SIZE_MAX := h4
  have hbase_inv : inv (new_state (α := α) a.obj_size junk) :=
    ⟨Nat.le_refl 0, Nat.zero_le _, Nat.zero_le _, by simp [new_state],
      by simp [new_state], by simp [buf, new_state], h7, h8,
      is_valid_index_zero _ h8⟩
  have hok := tsarray_resize_ok (n := sl) hbase_inv hslLM hcs
  have hprivinv := tsarray_resize_inv (n := sl) true hbase_inv hslLM
  have hnol : tsarray_new_of_len (α := α) a.obj_size sl true junk true =
      some (tsarray_resize (new_state (α := α) a.obj_size junk) sl true).2 := by
    unfold tsarray_new_of_len tsarray_new
    rw [if_pos rfl]
    dsimp only
    rw [hok.1, if_neg (show ¬ (TSARRAY_EOK ≠ 0) by decide)]
  have hempty : ¬ (start = stop ∨
      decide (start < stop) ≠ decide (step > 0) ∨
      (a.len : Int) ≤ min start stop) := by
    push_neg
    exact ⟨hne, decide_eq_decide.mpr hdir, hlo⟩
  unfold tsarray_slice
  dsimp only
  rw [if_neg hstep0, if_neg hempty, if_neg hstep1, ← hsl, hnol]
  dsimp only
  set priv := (tsarray_resize (new_state (α := α) a.obj_size junk) sl
    true).2 with hpriv
  clear_value priv
  have hge : sl ≤ priv.capacity := by
    rw [hok.2.2.1]
    exact planned_capacity_ge _ sl hslLM
  cases hit : priv.items with
  | none =>
    exfalso
    have hc0 : priv.capacity = 0 := hprivinv.2.2.2.2.1.mp hit
    rw [hc0] at hge
    rw [hsl] at hge
    exact Nat.not_succ_le_zero _ hge
  | some pl =>
    have hpl : pl.length = priv.capacity := by
      have hb := hprivinv.2.2.2.2.2.1
      rw [buf, hit] at hb
      simpa using hb
    refine ⟨_, rfl, hok.2.1, ?_⟩
    intro i hilt
    have hisl : i < sl := lt_of_lt_of_eq hilt hok.2.1
    have hrange := slice_step_read_in_range a.len start stop step hstart
      hstop hstep0 hne hdir hlo i hisl
    have hread : (slice_loop (buf a) (min start ((a.len : Int) - 1)) step
        sl 0 pl).getD i none =
        read_item (buf a) (min start ((a.len : Int) - 1) + (i : Int) * step) := by
      exact slice_loop_getD (buf a) _ step sl 0 pl i (Nat.zero_le i)
        (by simpa using hisl) (by rw [hpl]; exact lt_of_lt_of_le hisl hge)
    have hbuflen : (buf a).length = a.capacity := h6
    have hreadval : read_item (buf a)
        (min start ((a.len : Int) - 1) + (i : Int) * step) =
        (buf a).getD (min start ((a.len : Int) - 1) + (i : Int) * step).toNat
          none := by
      unfold read_item
      rw [if_pos ⟨hrange.1, by omega⟩]
    show get_item ({ priv with items := some (slice_loop (buf a)
        (min start ((a.len : Int) - 1)) step sl 0 pl) } : T α) i =
      get_item a ((min start ((a.len : Int) - 1) + (i : Int) * step).toNat)
    unfold get_item raw_get
    rw [if_pos (show i < ({ priv with items := some (slice_loop (buf a)
      (min start ((a.len : Int) - 1)) step sl 0 pl) } : T α).len from
        lt_of_lt_of_eq hisl hok.2.1.symm)]
    have hbr : buf ({ priv with items := some (slice_loop (buf a)
        (min start ((a.len : Int) - 1)) step sl 0 pl) } : T α) =
        slice_loop (buf a) (min start ((a.len : Int) - 1)) step sl 0 pl := by
      simp [buf]
    rw [hbr, hread, hreadval]
    rw [if_pos (show (min start ((a.len : Int) - 1) + (i : Int) * step).toNat <
      a.len by omega)]

/-- Witness for C8: the reverse slice `(8, 4, −1)` of `[0, 1, …, 9]`
yields `[8, 7, 6, 5]` of length 4 (spec scenario 5). -/
theorem slice_step_spec_witness :
    (inv exampleTen ∧ (0 : Int) ≤ 8 ∧ (0 : Int) ≤ 4 ∧ (-1 : Int) ≠ 0 ∧
      (-1 : Int) ≠ 1 ∧ (8 : Int) ≠ 4 ∧ ((8 : Int) < 4 ↔ (0 : Int) < -1) ∧
      min (8 : Int) 4 < (exampleTen.len : Int)) ∧
    (∃ r, tsarray_slice exampleTen 8 4 (-1) true false true = some r ∧
      r.len = (min (max (8 : Int) 4) ((exampleTen.len : Int)) -
        min (8 : Int) 4 - 1).toNat / (-1 : Int).natAbs + 1 ∧
      ∀ i : Nat, i < r.len →
        get_item r i = get_item exampleTen
          (min (8 : Int) ((exampleTen.len : Int) - 1) + (i : Int) * -1).toNat) ∧
    (tsarray_slice exampleTen 8 4 (-1) true false true).map
      (fun r => (r.len, get_item r 0, get_item r 1, get_item r 2,
        get_item r 3)) =
      some (4, some 8, some 7, some 6, some 5) :=
  ⟨⟨by decide, by decide, by decide, by decide, by decide, by decide,
    by decide, by decide⟩,
   slice_step_spec exampleTen 8 4 (-1) false (by decide) (by decide)
     (by decide) (by decide) (by decide) (by decide) (by decide) (by decide),
   by decide⟩

end Tsarray
